import Mathlib

/-!
Verification of the `ur` crate (Foundation-Devices/ur-rs): a fountain-code
based transport for byte messages ("Uniform Resources"), plus its registry
of CBOR payload types.

The registry code (`src/registry/*.rs`) is embedded from the source.  The
fountain/bytewords/envelope core is not part of the source tree available
here (only its fuzz harnesses and examples are), so those components are
modelled from the specification document, as indicated on each definition.

Machine integers are modelled as `Nat` with explicit range side conditions
(`< 2 ^ 32`, `< 2 ^ 64`) where the Rust types impose them; bytes are `Nat`s
below 256.
-/

namespace UrRs

/-! ## Ceiling division -/

/-- Ceiling division on naturals, `⌈a / b⌉`, as computed by the usual
`(a + b - 1) / b` idiom. -/
def cdiv (a b : Nat) : Nat := (a + b - 1) / b

theorem cdiv_le_iff {a b c : Nat} (hb : 0 < b) : cdiv a b ≤ c ↔ a ≤ c * b := by
  unfold cdiv
  rw [Nat.div_le_iff_le_mul_add_pred hb, Nat.mul_comm b c]
  omega

theorem lt_cdiv_iff {a b c : Nat} (hb : 0 < b) : c < cdiv a b ↔ c * b < a := by
  rw [← Nat.not_le, ← Nat.not_le, cdiv_le_iff hb]

theorem le_mul_cdiv {a b : Nat} (hb : 0 < b) : a ≤ cdiv a b * b :=
  (cdiv_le_iff hb).mp (Nat.le_refl _)

theorem cdiv_pos {a b : Nat} (ha : 0 < a) (hb : 0 < b) : 0 < cdiv a b := by
  rw [lt_cdiv_iff hb]; simpa using ha

theorem cdiv_anti {a b b' : Nat} (hb : 0 < b) (hbb : b ≤ b') :
    cdiv a b' ≤ cdiv a b := by
  have hb' : 0 < b' := Nat.lt_of_lt_of_le hb hbb
  rw [cdiv_le_iff hb']
  calc a ≤ cdiv a b * b := le_mul_cdiv hb
    _ ≤ cdiv a b * b' := Nat.mul_le_mul_left _ hbb

theorem cdiv_le_of_le {a b c : Nat} (hb : 0 < b) (h : a ≤ c * b) :
    cdiv a b ≤ c := (cdiv_le_iff hb).mpr h

theorem pred_cdiv_mul_lt {a b : Nat} (ha : 0 < a) (hb : 0 < b) :
    (cdiv a b - 1) * b < a := by
  rw [← lt_cdiv_iff hb]
  have := cdiv_pos ha hb
  omega

/-! ## Fragmenter (§4.1 of the spec)

Modelled from the spec: `fragment_length` and the sequence count are not in
the available source tree (`ur::fountain::fragment_length` is called by the
fuzz harnesses); §4.1 defines them by `N = ceil(L / max_F)`,
`F = ceil(L / N)`. -/

/-- Modelled from the spec: the sequence count `N = ceil(L / max_F)` (§4.1). -/
def sequenceCount (l maxF : Nat) : Nat := cdiv l maxF

/-- Modelled from the spec: `fragment_length(L, max_F) = ceil(L / ceil(L / max_F))`
(§4.1). -/
def fragment_length (l maxF : Nat) : Nat := cdiv l (sequenceCount l maxF)

theorem sequenceCount_pos {l maxF : Nat} (hl : 0 < l) (hf : 0 < maxF) :
    0 < sequenceCount l maxF := cdiv_pos hl hf

theorem fragment_length_pos {l maxF : Nat} (hl : 0 < l) (hf : 0 < maxF) :
    0 < fragment_length l maxF := cdiv_pos hl (sequenceCount_pos hl hf)

theorem fragment_length_le {l maxF : Nat} (hl : 0 < l) (hf : 0 < maxF) :
    fragment_length l maxF ≤ maxF := by
  have hN : 0 < sequenceCount l maxF := sequenceCount_pos hl hf
  apply cdiv_le_of_le hN
  calc l ≤ cdiv l maxF * maxF := le_mul_cdiv hf
    _ = maxF * sequenceCount l maxF := by rw [Nat.mul_comm]; rfl

/-- Chunking the message by `F = fragment_length l maxF` yields exactly
`sequenceCount l maxF` fragments. -/
theorem cdiv_fragment_length {l maxF : Nat} (hl : 0 < l) (hf : 0 < maxF) :
    cdiv l (fragment_length l maxF) = sequenceCount l maxF := by
  have hN : 0 < sequenceCount l maxF := sequenceCount_pos hl hf
  have hF : 0 < fragment_length l maxF := fragment_length_pos hl hf
  apply Nat.le_antisymm
  · apply cdiv_le_of_le hF
    calc l ≤ cdiv l (sequenceCount l maxF) * sequenceCount l maxF :=
          le_mul_cdiv hN
      _ = sequenceCount l maxF * fragment_length l maxF := Nat.mul_comm _ _
  · exact cdiv_anti hF (fragment_length_le hl hf)

/-- C4: for all `L ≥ 1` and `max_F ≥ 1`, `fragment_length(L, max_F)` returns
`F = ceil(L / ceil(L / max_F))`, and this `F` satisfies `F ≤ max_F`,
`ceil(L/F) * F ≥ L`, and `L > (ceil(L/F) - 1) * F`. -/
theorem C4_fragment_length_spec (L maxF : Nat) (hL : 1 ≤ L) (hmF : 1 ≤ maxF) :
    fragment_length L maxF = cdiv L (cdiv L maxF) ∧
    fragment_length L maxF ≤ maxF ∧
    L ≤ cdiv L (fragment_length L maxF) * fragment_length L maxF ∧
    (cdiv L (fragment_length L maxF) - 1) * fragment_length L maxF < L := by
  refine ⟨rfl, fragment_length_le hL hmF, ?_, ?_⟩
  · exact le_mul_cdiv (fragment_length_pos hL hmF)
  · exact pred_cdiv_mul_lt hL (fragment_length_pos hL hmF)

/-- Witness for C4 at the spec's own scenario `L = 2500`, `max_F = 100`
(which yields `N = 25`, `F = 100`). -/
theorem C4_fragment_length_spec_witness :
    ((1 : Nat) ≤ 2500 ∧ (1 : Nat) ≤ 100) ∧
    (fragment_length 2500 100 = cdiv 2500 (cdiv 2500 100) ∧
      fragment_length 2500 100 ≤ 100 ∧
      2500 ≤ cdiv 2500 (fragment_length 2500 100) * fragment_length 2500 100 ∧
      (cdiv 2500 (fragment_length 2500 100) - 1) * fragment_length 2500 100 <
        2500) :=
  ⟨by decide, C4_fragment_length_spec 2500 100 (by decide) (by decide)⟩

/-! ## CRC-32 (§3, §6 of the spec)

Modelled from the spec: CRC-32/ISO-HDLC — reflected polynomial `0xEDB88320`,
initial value `0xFFFFFFFF`, final XOR `0xFFFFFFFF`.  The 32-bit word is a
`Nat` kept below `2 ^ 32`. -/

def CRC_POLY : Nat := 0xEDB88320

/-- One bit step of the reflected CRC-32. -/
def crcBit (c : Nat) : Nat :=
  if c % 2 = 1 then (c / 2) ^^^ CRC_POLY else c / 2

/-- One byte step: XOR the byte into the low bits, then eight bit steps. -/
def crcByte (c b : Nat) : Nat := crcBit^[8] (c ^^^ b)

/-- Modelled from the spec: CRC-32/ISO-HDLC of a byte list (§3, §6). -/
def crc32 (data : List Nat) : Nat :=
  (data.foldl crcByte 0xFFFFFFFF) ^^^ 0xFFFFFFFF

theorem crcBit_lt {c : Nat} (hc : c < 2 ^ 32) : crcBit c < 2 ^ 32 := by
  unfold crcBit
  split
  · exact Nat.xor_lt_two_pow (by omega) (by decide)
  · omega

theorem crcByte_lt {c b : Nat} (hc : c < 2 ^ 32) (hb : b < 256) :
    crcByte c b < 2 ^ 32 := by
  have h0 : c ^^^ b < 2 ^ 32 := Nat.xor_lt_two_pow hc (by omega)
  unfold crcByte
  simp only [Function.iterate_succ, Function.iterate_zero, Function.comp_apply,
    id_eq]
  exact crcBit_lt (crcBit_lt (crcBit_lt (crcBit_lt (crcBit_lt (crcBit_lt
    (crcBit_lt (crcBit_lt h0)))))))

theorem crc_foldl_lt :
    ∀ (data : List Nat) (c : Nat), (∀ b ∈ data, b < 256) → c < 2 ^ 32 →
      data.foldl crcByte c < 2 ^ 32 := by
  intro data
  induction data with
  | nil => intro c _ hc; simpa using hc
  | cons x xs ih =>
      intro c h hc
      simp only [List.foldl_cons]
      exact ih _ (fun b hb => h b (List.mem_cons_of_mem _ hb))
        (crcByte_lt hc (h x (List.mem_cons_self _ _)))

theorem crc32_lt {data : List Nat} (h : ∀ b ∈ data, b < 256) :
    crc32 data < 2 ^ 32 := by
  unfold crc32
  exact Nat.xor_lt_two_pow (crc_foldl_lt data _ h (by decide)) (by decide)

/-- Big-endian serialization of a 32-bit word (the bytewords CRC trailer). -/
def be32 (n : Nat) : List Nat :=
  [n / 2 ^ 24 % 256, n / 2 ^ 16 % 256, n / 2 ^ 8 % 256, n % 256]

/-- Value of a big-endian 4-byte trailer. -/
def be32val (a b c d : Nat) : Nat := ((a * 256 + b) * 256 + c) * 256 + d

theorem be32val_be32 {n : Nat} (hn : n < 2 ^ 32) :
    be32val (n / 2 ^ 24 % 256) (n / 2 ^ 16 % 256) (n / 2 ^ 8 % 256)
      (n % 256) = n := by
  unfold be32val
  omega

theorem be32_mem_lt {n b : Nat} (hb : b ∈ be32 n) : b < 256 := by
  unfold be32 at hb
  simp only [List.mem_cons, List.not_mem_nil, or_false] at hb
  rcases hb with h | h | h | h <;> subst h <;> exact Nat.mod_lt _ (by decide)

theorem be32_length (n : Nat) : (be32 n).length = 4 := rfl

/-! ## CBOR item model for the registry (`src/registry/*.rs`)

The registry types delegate serialization to the external `minicbor` crate.
CBOR data items are modelled as a token stream: one token per item head,
with byte/text strings and integers carried inline.  `minicbor`'s positional
decoder becomes a function from a token list to a result plus the remaining
tokens; its encoder emits token lists.  This preserves exactly the structure
the registry code manipulates (map lengths, keys, integer widths, tags). -/

/-- One CBOR token: an item head together with its immediate payload. -/
inductive CTok where
  /-- Unsigned integer item. -/
  | uint (n : Nat)
  /-- Negative integer item (major type 1). -/
  | nint (n : Nat)
  /-- Definite byte string. -/
  | bytes (bs : List Nat)
  /-- Definite text string. -/
  | text (s : String)
  /-- Tag head; the tagged item follows. -/
  | tag (n : Nat)
  /-- Definite array head of `n` items. -/
  | arr (n : Nat)
  /-- Definite map head of `n` pairs. -/
  | map (n : Nat)
  /-- Indefinite map head. -/
  | mapIndef
  /-- Break (terminates indefinite items). -/
  | brk
deriving DecidableEq

/-- Decoding errors, mirroring `minicbor::decode::Error`. -/
inductive DErr where
  | endOfInput
  | typeMismatch
  | overflow
  | msg (s : String)
deriving DecidableEq

instance {ε α : Type} [DecidableEq ε] [DecidableEq α] :
    DecidableEq (Except ε α) := fun x y =>
  match x, y with
  | .ok a, .ok b =>
      if h : a = b then .isTrue (congrArg Except.ok h)
      else .isFalse (fun hc => h (by cases hc; rfl))
  | .error a, .error b =>
      if h : a = b then .isTrue (congrArg Except.error h)
      else .isFalse (fun hc => h (by cases hc; rfl))
  | .ok _, .error _ => .isFalse (fun hc => Except.noConfusion hc)
  | .error _, .ok _ => .isFalse (fun hc => Except.noConfusion hc)

/-- `Decoder::u32`: an unsigned integer item that fits in 32 bits. -/
def dU32 : List CTok → Except DErr (Nat × List CTok)
  | .uint n :: ts => if n < 2 ^ 32 then .ok (n, ts) else .error .overflow
  | [] => .error .endOfInput
  | _ => .error .typeMismatch

/-- `Decoder::u8`: an unsigned integer item that fits in 8 bits. -/
def dU8 : List CTok → Except DErr (Nat × List CTok)
  | .uint n :: ts => if n < 2 ^ 8 then .ok (n, ts) else .error .overflow
  | [] => .error .endOfInput
  | _ => .error .typeMismatch

/-- `Decoder::u64`: an unsigned integer item that fits in 64 bits. -/
def dU64 : List CTok → Except DErr (Nat × List CTok)
  | .uint n :: ts => if n < 2 ^ 64 then .ok (n, ts) else .error .overflow
  | [] => .error .endOfInput
  | _ => .error .typeMismatch

/-- `Decoder::tag`. -/
def dTag : List CTok → Except DErr (Nat × List CTok)
  | .tag n :: ts => .ok (n, ts)
  | [] => .error .endOfInput
  | _ => .error .typeMismatch

/-- `Decoder::bytes`: a definite byte string. -/
def dBytes : List CTok → Except DErr (List Nat × List CTok)
  | .bytes bs :: ts => .ok (bs, ts)
  | [] => .error .endOfInput
  | _ => .error .typeMismatch

/-- `Decoder::map`: `some len` for a definite map, `none` for indefinite. -/
def dMapHead : List CTok → Except DErr (Option Nat × List CTok)
  | .map n :: ts => .ok (some n, ts)
  | .mapIndef :: ts => .ok (none, ts)
  | [] => .error .endOfInput
  | _ => .error .typeMismatch

/-- The registry decoders iterate a `decode_inner!` step over a map: a
definite map runs it once per pair. -/
def decMapLoop (inner : σ → List CTok → Except DErr (σ × List CTok)) :
    Nat → σ → List CTok → Except DErr (σ × List CTok)
  | 0, st, ts => .ok (st, ts)
  | n + 1, st, ts => do
      let (st', ts') ← inner st ts
      decMapLoop inner n st' ts'

/-- For an indefinite map the registry decoders run `decode_inner!` while
`Decoder::datatype` is not `Break` — and do not consume the break.  The fuel
argument (instantiated with the stream length; `inner` always consumes at
least one token) makes the loop total. -/
def decMapLoopIndef (inner : σ → List CTok → Except DErr (σ × List CTok)) :
    Nat → σ → List CTok → Except DErr (σ × List CTok)
  | 0, _, _ => .error .endOfInput
  | fuel + 1, st, ts =>
      match ts with
      | [] => .error .endOfInput
      | .brk :: _ => .ok (st, ts)
      | _ => do
          let (st', ts') ← inner st ts
          decMapLoopIndef inner fuel st' ts'

/-- Shared shape of the registry `Decode` impls: read a map head, then fold
`inner` over its entries. -/
def decMap (inner : σ → List CTok → Except DErr (σ × List CTok)) (init : σ)
    (ts : List CTok) : Except DErr (σ × List CTok) := do
  let (lenOpt, ts') ← dMapHead ts
  match lenOpt with
  | some len => decMapLoop inner len init ts'
  | none => decMapLoopIndef inner ts'.length init ts'

/-! ### `CoinType` and `CryptoCoinInfo` (`src/registry/crypto_hdkey.rs`) -/

/-- SLIP-44 coin type (`crypto_hdkey.rs`). -/
inductive CoinType where
  | BTC
  | ETH
  | Unassigned (n : Nat)
deriving DecidableEq

/-- `impl From<u32> for CoinType`. -/
def CoinType.fromU32 (n : Nat) : CoinType :=
  if n = 0x00 then .BTC else if n = 0x3c then .ETH else .Unassigned n

/-- `impl From<CoinType> for u32`. -/
def CoinType.toU32 : CoinType → Nat
  | .BTC => 0x00
  | .ETH => 0x3c
  | .Unassigned n => n

/-- `impl Decode for CoinType`: `d.u32().map(CoinType::from)`. -/
def CoinType.dec (ts : List CTok) : Except DErr (CoinType × List CTok) := do
  let (n, ts') ← dU32 ts
  .ok (CoinType.fromU32 n, ts')

/-- `impl Encode for CoinType`: `e.u32(u32::from(*self))`. -/
def CoinType.enc (c : CoinType) : List CTok := [.uint c.toU32]

/-- Metadata for the type and use of a cryptocurrency
(`crypto_hdkey.rs`, `CryptoCoinInfo`). -/
structure CryptoCoinInfo where
  coin_type : CoinType
  network : Nat
deriving DecidableEq

/-- The `decode_inner!` step of `CryptoCoinInfo`'s `Decode` impl. -/
def CryptoCoinInfo.decInner (st : Option CoinType × Option Nat)
    (ts : List CTok) :
    Except DErr ((Option CoinType × Option Nat) × List CTok) := do
  let (k, ts') ← dU32 ts
  match k with
  | 1 => do
      let (ct, ts'') ← CoinType.dec ts'
      .ok ((some ct, st.2), ts'')
  | 2 => do
      let (nw, ts'') ← dU64 ts'
      .ok ((st.1, some nw), ts'')
  | _ => .error (.msg "unknown map entry")

/-- `impl Decode for CryptoCoinInfo`: absent entries default to
`CoinType::BTC` and network `0`. -/
def CryptoCoinInfo.dec (ts : List CTok) :
    Except DErr (CryptoCoinInfo × List CTok) := do
  let (st, ts') ← decMap CryptoCoinInfo.decInner (none, none) ts
  .ok (⟨st.1.getD .BTC, st.2.getD 0⟩, ts')

/-- `impl Encode for CryptoCoinInfo`: the `coin_type` entry is emitted only
when it is not `BTC`, the `network` entry only when it is not `0`. -/
def CryptoCoinInfo.enc (v : CryptoCoinInfo) : List CTok :=
  let nonDefCt : Bool := v.coin_type ≠ CoinType.BTC
  let nonDefNw : Bool := v.network ≠ 0
  [CTok.map (nonDefCt.toNat + nonDefNw.toNat)] ++
    (if nonDefCt then [CTok.uint 1] ++ CoinType.enc v.coin_type else []) ++
    (if nonDefNw then [CTok.uint 2, CTok.uint v.network] else [])

/-- `CryptoCoinInfo::TAG` is CBOR tag 305. -/
def CryptoCoinInfo.TAG : Nat := 305

/-! ### `AddressType` and `CryptoAddress` (`src/registry/crypto_address.rs`) -/

/-- Bitcoin-style address type. -/
inductive AddressType where
  | P2PKH
  | P2SH
  | P2WPKH
deriving DecidableEq

/-- `impl TryFrom<u8> for AddressType`. -/
def AddressType.tryFromU8 : Nat → Option AddressType
  | 0 => some .P2PKH
  | 1 => some .P2SH
  | 2 => some .P2WPKH
  | _ => none

/-- `impl From<AddressType> for u8`. -/
def AddressType.toU8 : AddressType → Nat
  | .P2PKH => 0
  | .P2SH => 1
  | .P2WPKH => 2

/-- `impl Decode for AddressType`: `d.u8()` then `try_from`. -/
def AddressType.dec (ts : List CTok) :
    Except DErr (AddressType × List CTok) := do
  let (n, ts') ← dU8 ts
  match AddressType.tryFromU8 n with
  | some a => .ok (a, ts')
  | none => .error (.msg "invalid address type")

/-- `impl Encode for AddressType`. -/
def AddressType.enc (a : AddressType) : List CTok := [.uint a.toU8]

/-- A cryptocurrency address (`crypto_address.rs`). -/
structure CryptoAddress where
  info : Option CryptoCoinInfo
  address_type : Option AddressType
  data : List Nat
deriving DecidableEq

/-- Decoder state of `CryptoAddress`: the three optional fields. -/
structure CryptoAddress.St where
  info : Option CryptoCoinInfo
  address_type : Option AddressType
  data : Option (List Nat)

/-- The `decode_inner!` step of `CryptoAddress`'s `Decode` impl. -/
def CryptoAddress.decInner (st : CryptoAddress.St) (ts : List CTok) :
    Except DErr (CryptoAddress.St × List CTok) := do
  let (k, ts') ← dU32 ts
  match k with
  | 1 => do
      let (t, ts'') ← dTag ts'
      if CryptoCoinInfo.TAG ≠ t then
        .error (.msg "crypto-coin-info tag is invalid")
      else do
        let (ci, ts₃) ← CryptoCoinInfo.dec ts''
        .ok ({ st with info := some ci }, ts₃)
  | 2 => do
      let (a, ts'') ← AddressType.dec ts'
      .ok ({ st with address_type := some a }, ts'')
  | 3 => do
      let (bs, ts'') ← dBytes ts'
      .ok ({ st with data := some bs }, ts'')
  | _ => .error (.msg "unknown map entry")

/-- `impl Decode for CryptoAddress`: the `data` entry (key 3) is mandatory. -/
def CryptoAddress.dec (ts : List CTok) :
    Except DErr (CryptoAddress × List CTok) := do
  let (st, ts') ← decMap CryptoAddress.decInner ⟨none, none, none⟩ ts
  match st.data with
  | some bs => .ok (⟨st.info, st.address_type, bs⟩, ts')
  | none => .error (.msg "data is missing")

/-- `impl Encode for CryptoAddress`: optional entries 1 (tagged coin info)
and 2 (address type), mandatory entry 3 (data). -/
def CryptoAddress.enc (v : CryptoAddress) : List CTok :=
  [CTok.map (v.info.isSome.toNat + v.address_type.isSome.toNat + 1)] ++
    (match v.info with
     | some ci => [CTok.uint 1, CTok.tag CryptoCoinInfo.TAG] ++ ci.enc
     | none => []) ++
    (match v.address_type with
     | some a => [CTok.uint 2] ++ a.enc
     | none => []) ++
    [CTok.uint 3, CTok.bytes v.data]

/-! ### Round trips for the registry types -/

/-- A `CoinType` survives the `u32` conversions iff it is not a
non-canonical `Unassigned` alias of `BTC` (0x00) or `ETH` (0x3c). -/
theorem coinType_fromU32_toU32 {c : CoinType}
    (h : c ≠ .Unassigned 0x00 ∧ c ≠ .Unassigned 0x3c) :
    CoinType.fromU32 c.toU32 = c := by
  cases c with
  | BTC => rfl
  | ETH => rfl
  | Unassigned n =>
      simp only [CoinType.toU32, CoinType.fromU32]
      rw [if_neg, if_neg]
      · intro hn; exact h.2 (by rw [hn])
      · intro hn; exact h.1 (by rw [hn])

theorem coinInfo_roundtrip (v : CryptoCoinInfo)
    (hct : CoinType.fromU32 v.coin_type.toU32 = v.coin_type)
    (hw : v.coin_type.toU32 < 2 ^ 32) (hnw : v.network < 2 ^ 64)
    (rest : List CTok) :
    CryptoCoinInfo.dec (CryptoCoinInfo.enc v ++ rest) = .ok (v, rest) := by
  obtain ⟨ct, nw⟩ := v
  simp only at hct hw hnw
  have hw' : ct.toU32 < 4294967296 := hw
  have hnw' : nw < 18446744073709551616 := hnw
  by_cases hb : ct = CoinType.BTC <;> by_cases hz : nw = 0 <;>
    simp [CryptoCoinInfo.enc, CryptoCoinInfo.dec, decMap, dMapHead,
      decMapLoop, CryptoCoinInfo.decInner, dU32, dU64, CoinType.dec,
      CoinType.enc, hb, hz, hct, hw', hnw', Bind.bind, Except.bind]

theorem addrType_roundtrip (a : AddressType) (rest : List CTok) :
    AddressType.dec (AddressType.enc a ++ rest) = .ok (a, rest) := by
  cases a <;> rfl

theorem address_roundtrip (v : CryptoAddress)
    (hinfo : ∀ ci ∈ v.info,
      CoinType.fromU32 ci.coin_type.toU32 = ci.coin_type ∧
      ci.coin_type.toU32 < 2 ^ 32 ∧ ci.network < 2 ^ 64)
    (rest : List CTok) :
    CryptoAddress.dec (CryptoAddress.enc v ++ rest) = .ok (v, rest) := by
  obtain ⟨info, at?, data⟩ := v
  cases info with
  | none =>
      cases at? with
      | none =>
          simp [CryptoAddress.enc, CryptoAddress.dec, decMap, dMapHead,
            decMapLoop, CryptoAddress.decInner, dU32, dBytes, Bind.bind,
            Except.bind]
      | some a =>
          simp only [CryptoAddress.enc, CryptoAddress.dec] at *
          cases a <;>
            simp [decMap, dMapHead, decMapLoop, CryptoAddress.decInner,
              dU32, dU8, dBytes, AddressType.dec, AddressType.enc,
              AddressType.tryFromU8, AddressType.toU8, Bind.bind, Except.bind]
  | some ci =>
      have hci := hinfo ci rfl
      have hdec : ∀ r, CryptoCoinInfo.dec (CryptoCoinInfo.enc ci ++ r) =
          .ok (ci, r) :=
        fun r => coinInfo_roundtrip ci hci.1 hci.2.1 hci.2.2 r
      cases at? with
      | none =>
          simp [CryptoAddress.enc, CryptoAddress.dec, decMap, dMapHead,
            decMapLoop, CryptoAddress.decInner, dU32, dTag, dBytes,
            CryptoCoinInfo.TAG, hdec, Bind.bind, Except.bind]
      | some a =>
          cases a <;>
            simp [CryptoAddress.enc, CryptoAddress.dec, decMap, dMapHead,
              decMapLoop, CryptoAddress.decInner, dU32, dU8, dTag, dBytes,
              CryptoCoinInfo.TAG, hdec, AddressType.dec, AddressType.enc,
              AddressType.tryFromU8, AddressType.toU8, Bind.bind, Except.bind]

/-! ### Well-formed CBOR items over the token alphabet

Used to state C10's "any map in which the data entry is absent": a map is a
well-formed item whose entries pair a key item with a value item. -/

mutual
/-- `Item ts`: `ts` is exactly one well-formed CBOR data item. -/
inductive Item : List CTok → Prop where
  | uint (n : Nat) : Item [.uint n]
  | nint (n : Nat) : Item [.nint n]
  | bytes (bs : List Nat) : Item [.bytes bs]
  | text (s : String) : Item [.text s]
  | tag (n : Nat) (ts : List CTok) : Item ts → Item (.tag n :: ts)
  | arr (n : Nat) (ts : List CTok) : Items n ts → Item (.arr n :: ts)
  | map (n : Nat) (ts : List CTok) : Items (2 * n) ts → Item (.map n :: ts)
  | mapIndef (ts : List CTok) : ItemsI ts → Item (.mapIndef :: ts)

/-- `Items n ts`: `ts` is exactly `n` consecutive well-formed items. -/
inductive Items : Nat → List CTok → Prop where
  | nil : Items 0 []
  | cons (ts ts' : List CTok) (n : Nat) :
      Item ts → Items n ts' → Items (n + 1) (ts ++ ts')

/-- `ItemsI ts`: key/value item pairs terminated by a break. -/
inductive ItemsI : List CTok → Prop where
  | brk : ItemsI [.brk]
  | cons (k v ts' : List CTok) :
      Item k → Item v → ItemsI ts' → ItemsI (k ++ v ++ ts')
end

theorem Item.head_shape {ts : List CTok} (h : Item ts) :
    ∃ t ts', ts = t :: ts' ∧ t ≠ CTok.brk := by
  cases h <;> exact ⟨_, _, rfl, by intro hc; cases hc⟩

/-- Map entries, none of which has key `3` (the `data` entry of
`CryptoAddress`): the definite form. -/
inductive EntriesNo3 : Nat → List CTok → Prop where
  | nil : EntriesNo3 0 []
  | cons (k v rest : List CTok) (n : Nat) :
      Item k → k ≠ [CTok.uint 3] → Item v → EntriesNo3 n rest →
      EntriesNo3 (n + 1) (k ++ v ++ rest)

/-- Map entries with no key `3`: the indefinite (break-terminated) form. -/
inductive EntriesNo3I : List CTok → Prop where
  | brk : EntriesNo3I [.brk]
  | cons (k v rest : List CTok) :
      Item k → k ≠ [CTok.uint 3] → Item v → EntriesNo3I rest →
      EntriesNo3I (k ++ v ++ rest)

/-- A well-formed CBOR map none of whose entries has key `3`. -/
def MapNoData (ts : List CTok) : Prop :=
  (∃ n ets, ts = CTok.map n :: ets ∧ EntriesNo3 n ets) ∨
  (∃ ets, ts = CTok.mapIndef :: ets ∧ EntriesNo3I ets)

theorem dU32_item {vts rest : List CTok} (h : Item vts) :
    (∃ e, dU32 (vts ++ rest) = .error e) ∨
    ∃ m, vts = [.uint m] ∧ m < 2 ^ 32 ∧ dU32 (vts ++ rest) = .ok (m, rest) := by
  cases h <;> simp only [List.cons_append, List.nil_append, dU32]
  case uint n =>
    by_cases hn : n < 2 ^ 32
    · exact Or.inr ⟨n, rfl, hn, by rw [if_pos hn]⟩
    · exact Or.inl ⟨_, by rw [if_neg hn]⟩
  all_goals exact Or.inl ⟨_, rfl⟩

theorem dU64_item {vts rest : List CTok} (h : Item vts) :
    (∃ e, dU64 (vts ++ rest) = .error e) ∨
    ∃ m, vts = [.uint m] ∧ dU64 (vts ++ rest) = .ok (m, rest) := by
  cases h <;> simp only [List.cons_append, List.nil_append, dU64]
  case uint n =>
    by_cases hn : n < 2 ^ 64
    · exact Or.inr ⟨n, rfl, by rw [if_pos hn]⟩
    · exact Or.inl ⟨_, by rw [if_neg hn]⟩
  all_goals exact Or.inl ⟨_, rfl⟩

theorem dU8_item {vts rest : List CTok} (h : Item vts) :
    (∃ e, dU8 (vts ++ rest) = .error e) ∨
    ∃ m, vts = [.uint m] ∧ dU8 (vts ++ rest) = .ok (m, rest) := by
  cases h <;> simp only [List.cons_append, List.nil_append, dU8]
  case uint n =>
    by_cases hn : n < 2 ^ 8
    · exact Or.inr ⟨n, rfl, by rw [if_pos hn]⟩
    · exact Or.inl ⟨_, by rw [if_neg hn]⟩
  all_goals exact Or.inl ⟨_, rfl⟩

theorem dBytes_item {vts rest : List CTok} (h : Item vts) :
    (∃ e, dBytes (vts ++ rest) = .error e) ∨
    ∃ bs, vts = [.bytes bs] ∧ dBytes (vts ++ rest) = .ok (bs, rest) := by
  cases h <;> simp only [List.cons_append, List.nil_append, dBytes]
  case bytes bs => exact Or.inr ⟨bs, rfl, rfl⟩
  all_goals exact Or.inl ⟨_, rfl⟩

/-- Reduction of the indefinite-map loop on a non-break head. -/
theorem decMapLoopIndef_cons {σ : Type}
    (inner : σ → List CTok → Except DErr (σ × List CTok)) (fuel : Nat)
    (st : σ) (t : CTok) (ts : List CTok) (ht : t ≠ CTok.brk) :
    decMapLoopIndef inner (fuel + 1) st (t :: ts) =
      (do
        let (st', ts') ← inner st (t :: ts)
        decMapLoopIndef inner fuel st' ts') := by
  cases t <;> first | rfl | exact absurd rfl ht

/-- One `decode_inner!` step of `CryptoCoinInfo` on a well-formed key/value
pair either fails or consumes exactly the pair. -/
theorem coinInfo_inner_item {k v : List CTok} (rest : List CTok)
    (st : Option CoinType × Option Nat) (hk : Item k) (hv : Item v) :
    (∃ e, CryptoCoinInfo.decInner st (k ++ (v ++ rest)) = .error e) ∨
    (∃ st', CryptoCoinInfo.decInner st (k ++ (v ++ rest)) = .ok (st', rest)) := by
  rcases @dU32_item _ (v ++ rest) hk with ⟨e, he⟩ | ⟨m, hkeq, hmlt, hok⟩
  · exact Or.inl ⟨e, by simp [CryptoCoinInfo.decInner, he, Bind.bind,
      Except.bind]⟩
  · rcases m with _ | _ | _ | m
    · exact Or.inl ⟨DErr.msg "unknown map entry", by
        simp [CryptoCoinInfo.decInner, hok, Bind.bind, Except.bind]⟩
    · rcases @dU32_item _ rest hv with ⟨e, he⟩ | ⟨x, hveq, hxlt, hvok⟩
      · exact Or.inl ⟨e, by simp [CryptoCoinInfo.decInner, hok, CoinType.dec,
          he, Bind.bind, Except.bind]⟩
      · exact Or.inr ⟨(some (CoinType.fromU32 x), st.2), by
          simp [CryptoCoinInfo.decInner, hok, CoinType.dec, hvok, Bind.bind,
            Except.bind]⟩
    · rcases @dU64_item _ rest hv with ⟨e, he⟩ | ⟨x, hveq, hvok⟩
      · exact Or.inl ⟨e, by simp [CryptoCoinInfo.decInner, hok, he, Bind.bind,
          Except.bind]⟩
      · exact Or.inr ⟨(st.1, some x), by
          simp [CryptoCoinInfo.decInner, hok, hvok, Bind.bind, Except.bind]⟩
    · exact Or.inl ⟨DErr.msg "unknown map entry", by
        simp [CryptoCoinInfo.decInner, hok, Bind.bind, Except.bind]⟩

/-- The definite-map loop of `CryptoCoinInfo` on `n` well-formed pairs
either fails or consumes exactly the pairs. -/
theorem coinInfo_defLoop_item :
    ∀ (n : Nat) (ets rest : List CTok) (st : Option CoinType × Option Nat),
      Items (2 * n) ets →
      (∃ e, decMapLoop CryptoCoinInfo.decInner n st (ets ++ rest) =
        .error e) ∨
      (∃ st', decMapLoop CryptoCoinInfo.decInner n st (ets ++ rest) =
        .ok (st', rest)) := by
  intro n
  induction n with
  | zero =>
      intro ets rest st h
      cases h
      exact Or.inr ⟨st, by simp [decMapLoop]⟩
  | succ n ih =>
      intro ets rest st h
      have h2 : Items (2 * n + 1 + 1) ets := by
        have : 2 * (n + 1) = 2 * n + 1 + 1 := by ring
        rwa [this] at h
      cases h2 with
      | cons k ts' _ hk hts =>
          cases hts with
          | cons v ts'' _ hv hts' =>
              have hassoc : (k ++ (v ++ ts'')) ++ rest =
                  k ++ (v ++ (ts'' ++ rest)) := by simp
              rcases coinInfo_inner_item (ts'' ++ rest) st hk hv with
                ⟨e, he⟩ | ⟨st', hok⟩
              · exact Or.inl ⟨e, by
                  simp only [decMapLoop, hassoc, he, Bind.bind, Except.bind]⟩
              · rcases ih ts'' rest st' hts' with ⟨e, he⟩ | ⟨st'', hok'⟩
                · exact Or.inl ⟨e, by
                    simp only [decMapLoop, hassoc, hok, Bind.bind,
                      Except.bind, he]⟩
                · exact Or.inr ⟨st'', by
                    simp only [decMapLoop, hassoc, hok, Bind.bind,
                      Except.bind, hok']⟩

/-- The indefinite-map loop of `CryptoCoinInfo` on well-formed pairs either
fails or stops exactly at the (unconsumed) break. -/
theorem Item.length_pos {ts : List CTok} (h : Item ts) : 0 < ts.length := by
  obtain ⟨t, ts', rfl, -⟩ := Item.head_shape h
  simp

theorem coinInfo_indefLoop_item :
    ∀ (L : Nat) (ets : List CTok), ets.length ≤ L → ItemsI ets →
      ∀ (rest : List CTok) (fuel : Nat) (st : Option CoinType × Option Nat),
      (∃ e, decMapLoopIndef CryptoCoinInfo.decInner fuel st (ets ++ rest) =
        .error e) ∨
      (∃ st', decMapLoopIndef CryptoCoinInfo.decInner fuel st (ets ++ rest) =
        .ok (st', CTok.brk :: rest)) := by
  intro L
  induction L with
  | zero =>
      intro ets hlen h rest fuel st
      cases h with
      | brk => simp at hlen
      | cons k v ts' hk hv hts =>
          have := Item.length_pos hk
          simp only [List.length_append] at hlen
          omega
  | succ L ih =>
      intro ets hlen h rest fuel st
      cases h with
      | brk =>
          cases fuel with
          | zero => exact Or.inl ⟨DErr.endOfInput, rfl⟩
          | succ fuel => exact Or.inr ⟨st, rfl⟩
      | cons k v ts' hk hv hts =>
          obtain ⟨t, k', hkeq, htb⟩ := Item.head_shape hk
          cases fuel with
          | zero => exact Or.inl ⟨DErr.endOfInput, rfl⟩
          | succ fuel =>
              have hts'len : ts'.length ≤ L := by
                have h1 := Item.length_pos hk
                have h2 := Item.length_pos hv
                simp at hlen
                omega
              have hstream : (k ++ v ++ ts') ++ rest =
                  t :: (k' ++ (v ++ (ts' ++ rest))) := by simp [hkeq]
              have hstep := decMapLoopIndef_cons CryptoCoinInfo.decInner fuel
                st t (k' ++ (v ++ (ts' ++ rest))) htb
              have hinner := coinInfo_inner_item (ts' ++ rest) st hk hv
              rw [hkeq] at hinner
              simp only [List.cons_append] at hinner
              rcases hinner with ⟨e, he⟩ | ⟨st', hok⟩
              · refine Or.inl ⟨e, ?_⟩
                rw [hstream, hstep]
                simp [he, Bind.bind, Except.bind]
              · rcases ih ts' hts'len hts rest fuel st' with
                  ⟨e, he⟩ | ⟨st'', hok'⟩
                · refine Or.inl ⟨e, ?_⟩
                  rw [hstream, hstep]
                  simp [hok, Bind.bind, Except.bind, he]
                · refine Or.inr ⟨st'', ?_⟩
                  rw [hstream, hstep]
                  simp [hok, Bind.bind, Except.bind, hok']

/-- Decoding a `CryptoCoinInfo` from a well-formed item either fails,
consumes exactly the item, or consumes the item short of the break of an
indefinite map (which the source decoder leaves in the stream). -/
theorem coinInfo_dec_item {vts : List CTok} (hv : Item vts)
    (rest : List CTok) :
    (∃ e, CryptoCoinInfo.dec (vts ++ rest) = .error e) ∨
    (∃ ci, CryptoCoinInfo.dec (vts ++ rest) = .ok (ci, rest)) ∨
    (∃ ci, CryptoCoinInfo.dec (vts ++ rest) = .ok (ci, CTok.brk :: rest))
    := by
  cases hv with
  | map n ts h =>
      rcases coinInfo_defLoop_item n ts rest (none, none) h with
        ⟨e, he⟩ | ⟨st', hok⟩
      · exact Or.inl ⟨e, by simp [CryptoCoinInfo.dec, decMap, dMapHead, he,
          Bind.bind, Except.bind]⟩
      · exact Or.inr (Or.inl ⟨⟨st'.1.getD .BTC, st'.2.getD 0⟩, by
          simp [CryptoCoinInfo.dec, decMap, dMapHead, hok, Bind.bind,
            Except.bind]⟩)
  | mapIndef ts h =>
      rcases coinInfo_indefLoop_item (ts ++ rest).length ts (by simp)
          h rest ((ts ++ rest).length) (none, none) with
        ⟨e, he⟩ | ⟨st', hok⟩
      · refine Or.inl ⟨e, ?_⟩
        simp only [List.length_append] at he
        simp [CryptoCoinInfo.dec, decMap, dMapHead, he, Bind.bind,
          Except.bind]
      · refine Or.inr (Or.inr ⟨⟨st'.1.getD .BTC, st'.2.getD 0⟩, ?_⟩)
        simp only [List.length_append] at hok
        simp [CryptoCoinInfo.dec, decMap, dMapHead, hok, Bind.bind,
          Except.bind]
  | uint n => exact Or.inl ⟨DErr.typeMismatch, rfl⟩
  | nint n => exact Or.inl ⟨DErr.typeMismatch, rfl⟩
  | bytes bs => exact Or.inl ⟨DErr.typeMismatch, rfl⟩
  | text s => exact Or.inl ⟨DErr.typeMismatch, rfl⟩
  | tag n ts _ => exact Or.inl ⟨DErr.typeMismatch, rfl⟩
  | arr n ts _ => exact Or.inl ⟨DErr.typeMismatch, rfl⟩

theorem dTag_item {vts rest : List CTok} (h : Item vts) :
    (∃ e, dTag (vts ++ rest) = .error e) ∨
    ∃ t vts', vts = .tag t :: vts' ∧ Item vts' ∧
      dTag (vts ++ rest) = .ok (t, vts' ++ rest) := by
  cases h <;> simp only [List.cons_append, List.nil_append, dTag]
  case tag n ts hts => exact Or.inr ⟨n, ts, rfl, hts, rfl⟩
  all_goals exact Or.inl ⟨_, rfl⟩

/-- One `decode_inner!` step of `CryptoAddress` on a well-formed key/value
pair whose key is not `3` either fails or consumes the pair (possibly short
of an embedded indefinite-map break) without setting `data`. -/
theorem addr_inner_no3 {k v : List CTok} (rest : List CTok)
    (st : CryptoAddress.St) (hk : Item k) (h3 : k ≠ [CTok.uint 3])
    (hv : Item v) :
    (∃ e, CryptoAddress.decInner st (k ++ (v ++ rest)) = .error e) ∨
    (∃ st', CryptoAddress.decInner st (k ++ (v ++ rest)) = .ok (st', rest) ∧
      st'.data = st.data) ∨
    (∃ st', CryptoAddress.decInner st (k ++ (v ++ rest)) =
      .ok (st', CTok.brk :: rest) ∧ st'.data = st.data) := by
  rcases @dU32_item _ (v ++ rest) hk with ⟨e, he⟩ | ⟨m, hkeq, hmlt, hok⟩
  · exact Or.inl ⟨e, by simp [CryptoAddress.decInner, he, Bind.bind,
      Except.bind]⟩
  · rcases m with _ | _ | _ | _ | m
    · exact Or.inl ⟨DErr.msg "unknown map entry", by
        simp [CryptoAddress.decInner, hok, Bind.bind, Except.bind]⟩
    · rcases @dTag_item _ rest hv with ⟨e, he⟩ | ⟨t, v', hveq, hv', hvok⟩
      · exact Or.inl ⟨e, by simp [CryptoAddress.decInner, hok, he, Bind.bind,
          Except.bind]⟩
      · by_cases ht : CryptoCoinInfo.TAG = t
        · rcases coinInfo_dec_item hv' rest with ⟨e, he⟩ | ⟨ci, hciok⟩ |
            ⟨ci, hciok⟩
          · exact Or.inl ⟨e, by simp [CryptoAddress.decInner, hok, hvok, ht,
              he, Bind.bind, Except.bind]⟩
          · exact Or.inr (Or.inl ⟨{ st with info := some ci }, by
              simp [CryptoAddress.decInner, hok, hvok, ht, hciok, Bind.bind,
                Except.bind]⟩)
          · exact Or.inr (Or.inr ⟨{ st with info := some ci }, by
              simp [CryptoAddress.decInner, hok, hvok, ht, hciok, Bind.bind,
                Except.bind]⟩)
        · exact Or.inl ⟨DErr.msg "crypto-coin-info tag is invalid", by
            simp [CryptoAddress.decInner, hok, hvok, ht, Bind.bind,
              Except.bind]⟩
    · rcases @dU8_item _ rest hv with ⟨e, he⟩ | ⟨x, hveq, hvok⟩
      · exact Or.inl ⟨e, by simp [CryptoAddress.decInner, hok,
          AddressType.dec, he, Bind.bind, Except.bind]⟩
      · rcases x with _ | _ | _ | x
        · exact Or.inr (Or.inl ⟨{ st with address_type := some .P2PKH }, by
            simp [CryptoAddress.decInner, hok, AddressType.dec, hvok,
              AddressType.tryFromU8, Bind.bind, Except.bind]⟩)
        · exact Or.inr (Or.inl ⟨{ st with address_type := some .P2SH }, by
            simp [CryptoAddress.decInner, hok, AddressType.dec, hvok,
              AddressType.tryFromU8, Bind.bind, Except.bind]⟩)
        · exact Or.inr (Or.inl ⟨{ st with address_type := some .P2WPKH }, by
            simp [CryptoAddress.decInner, hok, AddressType.dec, hvok,
              AddressType.tryFromU8, Bind.bind, Except.bind]⟩)
        · exact Or.inl ⟨DErr.msg "invalid address type", by
            simp [CryptoAddress.decInner, hok, AddressType.dec, hvok,
              AddressType.tryFromU8, Bind.bind, Except.bind]⟩
    · exact absurd hkeq h3
    · exact Or.inl ⟨DErr.msg "unknown map entry", by
        simp [CryptoAddress.decInner, hok, Bind.bind, Except.bind]⟩

/-- The definite-map loop of `CryptoAddress` over entries without key `3`
either fails or finishes with `data` still unset. -/
theorem addr_defLoop_no3 :
    ∀ {n : Nat} {ets : List CTok}, EntriesNo3 n ets →
      ∀ (rest : List CTok) (st : CryptoAddress.St), st.data = none →
      (∃ e, decMapLoop CryptoAddress.decInner n st (ets ++ rest) =
        .error e) ∨
      (∃ st' rem, decMapLoop CryptoAddress.decInner n st (ets ++ rest) =
        .ok (st', rem) ∧ st'.data = none) := by
  intro n ets h
  induction h with
  | nil =>
      intro rest st hd
      exact Or.inr ⟨st, rest, by simp [decMapLoop], hd⟩
  | cons k v ets' n hk h3 hv hrest ih =>
      intro rest st hd
      have hassoc : (k ++ v ++ ets') ++ rest = k ++ (v ++ (ets' ++ rest)) :=
        by simp
      rcases addr_inner_no3 (ets' ++ rest) st hk h3 hv with
        ⟨e, he⟩ | ⟨st', hok, hd'⟩ | ⟨st', hok, hd'⟩
      · exact Or.inl ⟨e, by
          simp only [decMapLoop, hassoc, he, Bind.bind, Except.bind]⟩
      · rcases ih rest st' (hd'.trans hd) with ⟨e, he⟩ | ⟨st'', rem, hok', hd''⟩
        · exact Or.inl ⟨e, by
            simp only [decMapLoop, hassoc, hok, Bind.bind, Except.bind, he]⟩
        · exact Or.inr ⟨st'', rem, by
            simp only [decMapLoop, hassoc, hok, Bind.bind, Except.bind, hok'],
            hd''⟩
      · cases n with
        | zero =>
            exact Or.inr ⟨st', CTok.brk :: (ets' ++ rest), by
              simp only [decMapLoop, hassoc, hok, Bind.bind, Except.bind],
              hd'.trans hd⟩
        | succ n =>
            refine Or.inl ⟨DErr.typeMismatch, ?_⟩
            rw [hassoc]
            simp only [decMapLoop, Bind.bind, Except.bind, hok]
            simp [decMapLoop, CryptoAddress.decInner, dU32, Bind.bind,
              Except.bind]

/-- The indefinite-map loop of `CryptoAddress` over entries without key `3`
either fails or finishes with `data` still unset. -/
theorem addr_indefLoop_no3 :
    ∀ {ets : List CTok}, EntriesNo3I ets →
      ∀ (rest : List CTok) (fuel : Nat) (st : CryptoAddress.St),
        st.data = none →
      (∃ e, decMapLoopIndef CryptoAddress.decInner fuel st (ets ++ rest) =
        .error e) ∨
      (∃ st' rem, decMapLoopIndef CryptoAddress.decInner fuel st
        (ets ++ rest) = .ok (st', rem) ∧ st'.data = none) := by
  intro ets h
  induction h with
  | brk =>
      intro rest fuel st hd
      cases fuel with
      | zero => exact Or.inl ⟨DErr.endOfInput, rfl⟩
      | succ fuel => exact Or.inr ⟨st, CTok.brk :: rest, rfl, hd⟩
  | cons k v ets' hk h3 hv hrest ih =>
      intro rest fuel st hd
      obtain ⟨t, k', hkeq, htb⟩ := Item.head_shape hk
      cases fuel with
      | zero => exact Or.inl ⟨DErr.endOfInput, rfl⟩
      | succ fuel =>
          have hstream : (k ++ v ++ ets') ++ rest =
              t :: (k' ++ (v ++ (ets' ++ rest))) := by simp [hkeq]
          have hstep := decMapLoopIndef_cons CryptoAddress.decInner fuel st
            t (k' ++ (v ++ (ets' ++ rest))) htb
          have hinner := addr_inner_no3 (ets' ++ rest) st hk h3 hv
          rw [hkeq] at hinner
          simp only [List.cons_append] at hinner
          rcases hinner with ⟨e, he⟩ | ⟨st', hok, hd'⟩ | ⟨st', hok, hd'⟩
          · refine Or.inl ⟨e, ?_⟩
            rw [hstream, hstep]
            simp [he, Bind.bind, Except.bind]
          · rcases ih rest fuel st' (hd'.trans hd) with
              ⟨e, he⟩ | ⟨st'', rem, hok', hd''⟩
            · refine Or.inl ⟨e, ?_⟩
              rw [hstream, hstep]
              simp [hok, Bind.bind, Except.bind, he]
            · refine Or.inr ⟨st'', rem, ?_, hd''⟩
              rw [hstream, hstep]
              simp [hok, Bind.bind, Except.bind, hok']
          · cases fuel with
            | zero =>
                refine Or.inl ⟨DErr.endOfInput, ?_⟩
                rw [hstream, hstep]
                simp [hok, Bind.bind, Except.bind, decMapLoopIndef]
            | succ fuel =>
                refine Or.inr ⟨st', CTok.brk :: (ets' ++ rest), ?_,
                  hd'.trans hd⟩
                rw [hstream, hstep]
                simp [hok, Bind.bind, Except.bind, decMapLoopIndef]

/-- Decoding a `CryptoAddress` from any well-formed map without a key-`3`
(`data`) entry fails. -/
theorem address_dec_noData {ts : List CTok} (h : MapNoData ts) :
    ∃ e, CryptoAddress.dec ts = .error e := by
  rcases h with ⟨n, ets, rfl, hets⟩ | ⟨ets, rfl, hets⟩
  · rcases addr_defLoop_no3 hets [] ⟨none, none, none⟩ rfl with
      ⟨e, he⟩ | ⟨st', rem, hok, hd⟩
    · rw [List.append_nil] at he
      exact ⟨e, by simp [CryptoAddress.dec, decMap, dMapHead, he, Bind.bind,
        Except.bind]⟩
    · rw [List.append_nil] at hok
      refine ⟨DErr.msg "data is missing", ?_⟩
      simp [CryptoAddress.dec, decMap, dMapHead, hok, Bind.bind, Except.bind,
        hd]
  · rcases addr_indefLoop_no3 hets [] ets.length ⟨none, none, none⟩ rfl with
      ⟨e, he⟩ | ⟨st', rem, hok, hd⟩
    · rw [List.append_nil] at he
      exact ⟨e, by simp [CryptoAddress.dec, decMap, dMapHead, he, Bind.bind,
        Except.bind]⟩
    · rw [List.append_nil] at hok
      refine ⟨DErr.msg "data is missing", ?_⟩
      simp [CryptoAddress.dec, decMap, dMapHead, hok, Bind.bind, Except.bind,
        hd]

/-! ### `BaseValue` (`src/registry/mod.rs`)

The Rust `BaseValue<'a, Other, C>` is generic, and the payload types whose
CBOR `Decode` impls are not part of the embedded modules (`Seed`,
`BaseHDKey`, `CryptoKeypath`, `ECKey`, `BaseCryptoRequest`) enter only
through those trait impls.  They are modelled as type parameters with their
decoders passed explicitly; `from_ur`'s dispatch and `ur_type` are embedded
verbatim. -/

/-- A type that knows UR values (`registry/mod.rs`, `BaseValue`). -/
inductive BaseValue (σ η κ ε ρ : Type) where
  | Bytes (v : List Nat)
  | CryptoSeed (v : σ)
  | CryptoHDKey (v : η)
  | CryptoKeypath (v : κ)
  | CryptoCoinInfo (v : CryptoCoinInfo)
  | CryptoECKey (v : ε)
  | CryptoAddress (v : CryptoAddress)
  | CryptoPSBT (v : List Nat)
  | CryptoRequest (v : ρ)
deriving DecidableEq

/-- The CBOR decoders of the payload types left as parameters. -/
structure RegDecoders (σ η κ ε ρ : Type) where
  seed : List CTok → Except DErr (σ × List CTok)
  hdkey : List CTok → Except DErr (η × List CTok)
  keypath : List CTok → Except DErr (κ × List CTok)
  eckey : List CTok → Except DErr (ε × List CTok)
  request : List CTok → Except DErr (ρ × List CTok)

/-- Errors of `BaseValue::from_ur` (`registry/mod.rs`, `Error`). -/
inductive RegError where
  | Cbor (e : DErr)
  | Deprecated (s : String)
  | Unimplemented (s : String)
  | UnknownType (s : String)
deriving DecidableEq

/-- Lift a positional decode result to a `from_ur` result, keeping the
decoded value (`minicbor::decode`). -/
def regDecode {α β : Type} (f : α → β) :
    Except DErr (α × List CTok) → Except RegError β
  | .ok (v, _) => .ok (f v)
  | .error e => .error (.Cbor e)

/-- `BaseValue::from_ur` (`registry/mod.rs`): decode `message` according to
`ur_type`. -/
def BaseValue.from_ur {σ η κ ε ρ : Type} (d : RegDecoders σ η κ ε ρ)
    (ur_type : String) (message : List CTok) :
    Except RegError (BaseValue σ η κ ε ρ) :=
  match ur_type with
  | "bytes" => regDecode BaseValue.Bytes (dBytes message)
  | "cbor-png" => .error (.Unimplemented ur_type)
  | "cbor-svg" => .error (.Unimplemented ur_type)
  | "cose-sign" => .error (.Unimplemented ur_type)
  | "cose-sign1" => .error (.Unimplemented ur_type)
  | "cose-encrypt" => .error (.Unimplemented ur_type)
  | "cose-encrypt0" => .error (.Unimplemented ur_type)
  | "cose-mac" => .error (.Unimplemented ur_type)
  | "cose-key" => .error (.Unimplemented ur_type)
  | "cose-keyset" => .error (.Unimplemented ur_type)
  | "crypto-msg" => .error (.Unimplemented ur_type)
  | "crypto-seed" => regDecode BaseValue.CryptoSeed (d.seed message)
  | "crypto-bip39" => .error (.Unimplemented ur_type)
  | "crypto-slip39" => .error (.Deprecated ur_type)
  | "crypto-hdkey" => regDecode BaseValue.CryptoHDKey (d.hdkey message)
  | "crypto-keypath" => regDecode BaseValue.CryptoKeypath (d.keypath message)
  | "crypto-coin-info" =>
      regDecode BaseValue.CryptoCoinInfo (CryptoCoinInfo.dec message)
  | "crypto-eckey" => regDecode BaseValue.CryptoECKey (d.eckey message)
  | "crypto-address" =>
      regDecode BaseValue.CryptoAddress (CryptoAddress.dec message)
  | "crypto-output" => .error (.Unimplemented ur_type)
  | "crypto-sskr" => .error (.Unimplemented ur_type)
  | "crypto-psbt" => regDecode BaseValue.CryptoPSBT (dBytes message)
  | "crypto-account" => .error (.Unimplemented ur_type)
  | "crypto-request" => regDecode BaseValue.CryptoRequest (d.request message)
  | "crypto-response" => .error (.Unimplemented ur_type)
  | _ => .error (.UnknownType ur_type)

/-- `BaseValue::ur_type` (`registry/mod.rs`): note it returns
`"crypto-coininfo"` for the coin-info variant, while `from_ur` accepts
`"crypto-coin-info"`. -/
def BaseValue.ur_type {σ η κ ε ρ : Type} : BaseValue σ η κ ε ρ → String
  | .Bytes _ => "bytes"
  | .CryptoSeed _ => "crypto-seed"
  | .CryptoHDKey _ => "crypto-hdkey"
  | .CryptoKeypath _ => "crypto-keypath"
  | .CryptoCoinInfo _ => "crypto-coininfo"
  | .CryptoECKey _ => "crypto-eckey"
  | .CryptoAddress _ => "crypto-address"
  | .CryptoPSBT _ => "crypto-psbt"
  | .CryptoRequest _ => "crypto-request"

/-- Decoders that always fail, for closed instantiations. -/
def trivRegDecoders : RegDecoders Unit Unit Unit Unit Unit :=
  ⟨fun _ => .error .typeMismatch, fun _ => .error .typeMismatch,
    fun _ => .error .typeMismatch, fun _ => .error .typeMismatch,
    fun _ => .error .typeMismatch⟩

theorem regDecode_ok {α β : Type} {f : α → β} {x : Except DErr (α × List CTok)}
    {v : β} (h : regDecode f x = .ok v) : ∃ a ts, x = .ok (a, ts) ∧ v = f a := by
  cases x with
  | ok p => exact ⟨p.1, p.2, rfl, by cases h; rfl⟩
  | error e => cases h

/-- C8 (amended): whenever `BaseValue::from_ur(t, m)` succeeds with value
`v`, `v.ur_type()` returns `t` — except for `t = "crypto-coin-info"`, where
it returns `"crypto-coininfo"`. -/
theorem C8_from_ur_ur_type {σ η κ ε ρ : Type} (d : RegDecoders σ η κ ε ρ)
    (t : String) (m : List CTok) (v : BaseValue σ η κ ε ρ)
    (h : BaseValue.from_ur d t m = .ok v) :
    v.ur_type = if t = "crypto-coin-info" then "crypto-coininfo" else t := by
  unfold BaseValue.from_ur at h
  split at h
  all_goals
    first
    | exact Except.noConfusion h
    | (obtain ⟨a, ts, hx, rfl⟩ := regDecode_ok h
       simp_all [BaseValue.ur_type])

/-- Witness for C8 at `t = "bytes"`. -/
theorem C8_from_ur_ur_type_witness :
    BaseValue.from_ur trivRegDecoders "bytes" [CTok.bytes [7]] =
      .ok (.Bytes [7]) ∧
    (BaseValue.Bytes (σ := Unit) (η := Unit) (κ := Unit) (ε := Unit)
        (ρ := Unit) [7]).ur_type =
      if "bytes" = "crypto-coin-info" then "crypto-coininfo" else "bytes" :=
  ⟨by decide, C8_from_ur_ur_type trivRegDecoders "bytes" [CTok.bytes [7]]
    (.Bytes [7]) (by decide)⟩

/-- C8 fails as stated: `from_ur` accepts the BCR-2020-006 type string
`"crypto-coin-info"`, but `ur_type` on the result returns
`"crypto-coininfo"`. -/
theorem C8_counterexample :
    BaseValue.from_ur trivRegDecoders "crypto-coin-info" [CTok.map 0] =
      .ok (.CryptoCoinInfo ⟨.BTC, 0⟩) ∧
    (BaseValue.CryptoCoinInfo (σ := Unit) (η := Unit) (κ := Unit)
        (ε := Unit) (ρ := Unit) ⟨.BTC, 0⟩).ur_type ≠ "crypto-coin-info" := by
  exact ⟨by decide, by decide⟩

/-- C9 (amended): a `CryptoCoinInfo` whose `coin_type` is not a
non-canonical `Unassigned` alias of `BTC` or `ETH` and whose fields fit
their integer widths round-trips through CBOR; the encoder emits the empty
map for the all-default value, and the decoder restores the defaults from
the empty map. -/
theorem C9_coininfo_cbor_roundtrip (v : CryptoCoinInfo)
    (hct : v.coin_type ≠ .Unassigned 0x00 ∧ v.coin_type ≠ .Unassigned 0x3c)
    (hw : v.coin_type.toU32 < 2 ^ 32) (hnw : v.network < 2 ^ 64) :
    CryptoCoinInfo.dec (CryptoCoinInfo.enc v) = .ok (v, []) ∧
    CryptoCoinInfo.enc ⟨.BTC, 0⟩ = [CTok.map 0] ∧
    CryptoCoinInfo.dec [CTok.map 0] = .ok (⟨.BTC, 0⟩, []) := by
  refine ⟨?_, by decide, by decide⟩
  have := coinInfo_roundtrip v (coinType_fromU32_toU32 hct) hw hnw []
  simpa using this

/-- Witness for C9 at `⟨ETH, 5⟩`. -/
theorem C9_coininfo_cbor_roundtrip_witness :
    ((CoinType.ETH ≠ CoinType.Unassigned 0x00 ∧
        CoinType.ETH ≠ CoinType.Unassigned 0x3c) ∧
      CoinType.ETH.toU32 < 2 ^ 32 ∧ (5 : Nat) < 2 ^ 64) ∧
    (CryptoCoinInfo.dec (CryptoCoinInfo.enc ⟨.ETH, 5⟩) =
        .ok (⟨.ETH, 5⟩, []) ∧
      CryptoCoinInfo.enc ⟨.BTC, 0⟩ = [CTok.map 0] ∧
      CryptoCoinInfo.dec [CTok.map 0] = .ok (⟨.BTC, 0⟩, [])) :=
  ⟨⟨⟨by decide, by decide⟩, by decide, by decide⟩,
    C9_coininfo_cbor_roundtrip ⟨.ETH, 5⟩ ⟨by decide, by decide⟩ (by decide)
      (by decide)⟩

/-- C9 fails as stated: `Unassigned 0` encodes as the integer `0`, which
decodes back as `BTC`. -/
theorem C9_counterexample :
    CryptoCoinInfo.dec (CryptoCoinInfo.enc ⟨.Unassigned 0, 0⟩) ≠
      .ok (⟨.Unassigned 0, 0⟩, []) ∧
    CryptoCoinInfo.dec (CryptoCoinInfo.enc ⟨.Unassigned 0, 0⟩) =
      .ok (⟨.BTC, 0⟩, []) := by
  exact ⟨by decide, by decide⟩

/-- C10 (amended): a `CryptoAddress` whose embedded coin info (when
present) has a canonical `coin_type` and in-width fields round-trips
through CBOR, and decoding fails on every well-formed map without a
key-`3` (`data`) entry. -/
theorem C10_address_cbor_roundtrip :
    (∀ v : CryptoAddress,
      (∀ ci ∈ v.info,
        (ci.coin_type ≠ .Unassigned 0x00 ∧
          ci.coin_type ≠ .Unassigned 0x3c) ∧
        ci.coin_type.toU32 < 2 ^ 32 ∧ ci.network < 2 ^ 64) →
      CryptoAddress.dec (CryptoAddress.enc v) = .ok (v, [])) ∧
    (∀ ts, MapNoData ts → ∃ e, CryptoAddress.dec ts = .error e) := by
  constructor
  · intro v h
    have := address_roundtrip v (fun ci hci =>
      ⟨coinType_fromU32_toU32 (h ci hci).1, (h ci hci).2.1, (h ci hci).2.2⟩) []
    simpa using this
  · intro ts h
    exact address_dec_noData h

/-- Witness for C10: a round trip at a concrete address with ETH coin info,
and decode failure on the concrete data-less map `{1: 7}`. -/
theorem C10_address_cbor_roundtrip_witness :
    ((∀ ci ∈ (some ⟨.ETH, 1⟩ : Option CryptoCoinInfo),
        (ci.coin_type ≠ .Unassigned 0x00 ∧
          ci.coin_type ≠ .Unassigned 0x3c) ∧
        ci.coin_type.toU32 < 2 ^ 32 ∧ ci.network < 2 ^ 64) ∧
      MapNoData [CTok.map 1, CTok.uint 1, CTok.uint 7]) ∧
    (CryptoAddress.dec (CryptoAddress.enc ⟨some ⟨.ETH, 1⟩, none, [1, 2]⟩) =
        .ok (⟨some ⟨.ETH, 1⟩, none, [1, 2]⟩, []) ∧
      ∃ e, CryptoAddress.dec [CTok.map 1, CTok.uint 1, CTok.uint 7] =
        .error e) := by
  have hmap : MapNoData [CTok.map 1, CTok.uint 1, CTok.uint 7] :=
    Or.inl ⟨1, [CTok.uint 1, CTok.uint 7], rfl,
      EntriesNo3.cons [CTok.uint 1] [CTok.uint 7] [] 0 (Item.uint 1)
        (by decide) (Item.uint 7) EntriesNo3.nil⟩
  refine ⟨⟨?_, hmap⟩, C10_address_cbor_roundtrip.1 _ ?_,
    C10_address_cbor_roundtrip.2 _ hmap⟩
  · intro ci hci
    cases hci
    exact ⟨⟨by decide, by decide⟩, by decide, by decide⟩
  · intro ci hci
    cases hci
    exact ⟨⟨by decide, by decide⟩, by decide, by decide⟩

/-- C10 fails as stated: an address embedding the non-canonical coin type
`Unassigned 0` does not round-trip. -/
theorem C10_counterexample :
    CryptoAddress.dec (CryptoAddress.enc
        ⟨some ⟨.Unassigned 0, 0⟩, none, [5]⟩) ≠
      .ok (⟨some ⟨.Unassigned 0, 0⟩, none, [5]⟩, []) ∧
    CryptoAddress.dec (CryptoAddress.enc
        ⟨some ⟨.Unassigned 0, 0⟩, none, [5]⟩) =
      .ok (⟨some ⟨.BTC, 0⟩, none, [5]⟩, []) := by
  exact ⟨by decide, by decide⟩

/-! ## Bytewords codec (§4.6 of the spec)

Modelled from the spec: the bytewords module is not in the available source
tree (only its fuzz harness is).  Each byte maps to a 4-letter word from a
fixed 256-entry table whose (first, last)-letter projection is
collision-free; the table itself (BCR-2020-012) is not reproduced in the
spec, so it is a parameter constrained by `GoodTable`, and concrete
instantiations use a synthetic conforming table. -/

/-- The three bytewords styles (§4.6). -/
inductive Style where
  | standard
  | uri
  | minimal
deriving DecidableEq

/-- Bytewords failures (§4.6): unknown token, wrong length, CRC mismatch,
empty result. -/
inductive BwErr where
  | unknownWord
  | wrongLength
  | invalidCrc
  | emptyPayload
deriving DecidableEq

/-- The 2-letter minimal form of a 4-letter word. -/
def minimalForm : List Char → List Char
  | [a, _, _, d] => [a, d]
  | w => w

/-- The spec's constraints on the word table: 4 lower-case letters per
word, collision-free (first, last) projection. -/
def GoodTable (wt : Nat → List Char) : Prop :=
  (∀ b < 256, (wt b).length = 4) ∧
  (∀ b < 256, ∀ c ∈ wt b, c.isLower = true) ∧
  (∀ b < 256, ∀ b' < 256, minimalForm (wt b) = minimalForm (wt b') → b = b')

/-- The textual form of one byte in a given style. -/
def encodeWord (wt : Nat → List Char) : Style → Nat → List Char
  | .minimal, b => minimalForm (wt b)
  | .standard, b => wt b
  | .uri, b => wt b

/-- Modelled from the spec: bytewords encoding (§4.6) — append the 4-byte
big-endian CRC-32 of the input, map bytes to words, join with the style's
separator (none for minimal). -/
def bytewordsEncode (wt : Nat → List Char) (style : Style)
    (data : List Nat) : List Char :=
  let ws := (data ++ be32 (crc32 data)).map (encodeWord wt style)
  match style with
  | .standard => List.intercalate [' '] ws
  | .uri => List.intercalate ['-'] ws
  | .minimal => ws.flatten

/-- Reverse lookup of one word, rejecting unknown words. -/
def decodeWord (wt : Nat → List Char) (style : Style) (w : List Char) :
    Option Nat :=
  (List.range 256).find? (fun b => encodeWord wt style b == w)

/-- Split a minimal-style string into 2-letter groups; odd length is a
wrong-length error. -/
def chunk2 : List Char → Option (List (List Char))
  | [] => some []
  | _ :: [] => none
  | a :: b :: rest => (chunk2 rest).map (fun ws => [a, b] :: ws)

/-- Modelled from the spec: split off the trailing 4 bytes, verify the CRC
of the remainder, reject an empty remainder (§4.6). -/
def stripCrc (bytes : List Nat) : Except BwErr (List Nat) :=
  if bytes.length < 4 then .error .invalidCrc
  else
    let payload := bytes.take (bytes.length - 4)
    let trailer := bytes.drop (bytes.length - 4)
    if trailer ≠ be32 (crc32 payload) then .error .invalidCrc
    else if payload.isEmpty then .error .emptyPayload
    else .ok payload

/-- Decode a list of words: reject unknown words, then strip the CRC. -/
def wordsToBytes (wt : Nat → List Char) (style : Style)
    (ws : List (List Char)) : Except BwErr (List Nat) :=
  match ws.mapM (decodeWord wt style) with
  | some bytes => stripCrc bytes
  | none => .error .unknownWord

/-- Modelled from the spec: bytewords decoding (§4.6). -/
def bytewordsDecode (wt : Nat → List Char) (style : Style) (s : List Char) :
    Except BwErr (List Nat) :=
  match style with
  | .standard => wordsToBytes wt .standard (s.splitOn ' ')
  | .uri => wordsToBytes wt .uri (s.splitOn '-')
  | .minimal =>
      match chunk2 s with
      | some ws => wordsToBytes wt .minimal ws
      | none => .error .wrongLength

/-- A synthetic table satisfying `GoodTable`, used for concrete
instantiations: word `b` is `[x, 'a', 'a', y]` with `x, y` drawn from 16
letters by the high and low nibble of `b`. -/
def nibbleChars : List Char :=
  ['a', 'b', 'c', 'd', 'e', 'f', 'g', 'h', 'i', 'j', 'k', 'l', 'm', 'n',
    'o', 'p']

def sampleTable (b : Nat) : List Char :=
  [nibbleChars.getD (b / 16) 'a', 'a', 'a', nibbleChars.getD (b % 16) 'a']

theorem nibbleChars_inj :
    ∀ i < 16, ∀ j < 16,
      nibbleChars.getD i 'a' = nibbleChars.getD j 'a' → i = j := by decide

set_option maxRecDepth 8192 in
theorem sampleTable_good : GoodTable sampleTable := by
  refine ⟨by decide, by decide, ?_⟩
  intro b hb b' hb' h
  have h2 : nibbleChars.getD (b / 16) 'a' = nibbleChars.getD (b' / 16) 'a' ∧
      nibbleChars.getD (b % 16) 'a' = nibbleChars.getD (b' % 16) 'a' := by
    have hm : minimalForm (sampleTable b) =
        [nibbleChars.getD (b / 16) 'a', nibbleChars.getD (b % 16) 'a'] := rfl
    have hm' : minimalForm (sampleTable b') =
        [nibbleChars.getD (b' / 16) 'a', nibbleChars.getD (b' % 16) 'a'] :=
      rfl
    rw [hm, hm'] at h
    exact ⟨by injection h, by injection h with h1 h2; injection h2⟩
  have hhi := nibbleChars_inj (b / 16) (by omega) (b' / 16) (by omega) h2.1
  have hlo := nibbleChars_inj (b % 16) (by omega) (b' % 16) (by omega) h2.2
  omega

theorem find?_eq_some_of_mem_unique {p : Nat → Bool} {b : Nat} :
    ∀ (l : List Nat), b ∈ l → p b = true → (∀ x ∈ l, p x = true → x = b) →
      l.find? p = some b := by
  intro l
  induction l with
  | nil => intro h; cases h
  | cons x xs ih =>
      intro hmem hpb huniq
      by_cases hx : p x = true
      · have hxb : x = b := huniq x (List.mem_cons_self _ _) hx
        subst hxb
        exact List.find?_cons_of_pos _ hx
      · rw [List.find?_cons_of_neg _ (by simpa using hx)]
        have hbx : b ≠ x := fun he => hx (he ▸ hpb)
        have hmem' : b ∈ xs := by
          rcases List.mem_cons.mp hmem with h | h
          · exact absurd h hbx
          · exact h
        exact ih hmem' hpb (fun y hy hpy =>
          huniq y (List.mem_cons_of_mem _ hy) hpy)

theorem encodeWord_injOn {wt : Nat → List Char} (hwt : GoodTable wt)
    (style : Style) {b b' : Nat} (hb : b < 256) (hb' : b' < 256)
    (h : encodeWord wt style b = encodeWord wt style b') : b = b' := by
  cases style with
  | minimal => exact hwt.2.2 b hb b' hb' h
  | standard =>
      simp only [encodeWord] at h
      exact hwt.2.2 b hb b' hb' (by rw [h])
  | uri =>
      simp only [encodeWord] at h
      exact hwt.2.2 b hb b' hb' (by rw [h])

theorem decodeWord_encodeWord {wt : Nat → List Char} (hwt : GoodTable wt)
    (style : Style) {b : Nat} (hb : b < 256) :
    decodeWord wt style (encodeWord wt style b) = some b := by
  apply find?_eq_some_of_mem_unique
  · exact List.mem_range.mpr hb
  · simp
  · intro x hx hpx
    exact encodeWord_injOn hwt style (List.mem_range.mp hx) hb
      (by simpa using hpx)

theorem mapM_decodeWord {wt : Nat → List Char} (hwt : GoodTable wt)
    (style : Style) :
    ∀ (l : List Nat), (∀ x ∈ l, x < 256) →
      (l.map (encodeWord wt style)).mapM (decodeWord wt style) = some l := by
  intro l
  induction l with
  | nil => intro; rfl
  | cons x xs ih =>
      intro h
      simp only [List.map_cons, List.mapM_cons,
        decodeWord_encodeWord hwt style (h x (List.mem_cons_self _ _)),
        ih (fun y hy => h y (List.mem_cons_of_mem _ hy))]
      rfl

theorem stripCrc_append (data : List Nat) :
    stripCrc (data ++ be32 (crc32 data)) =
      if data.isEmpty then .error .emptyPayload else .ok data := by
  have hlen : (data ++ be32 (crc32 data)).length = data.length + 4 := by
    simp [be32]
  have hsub : (data ++ be32 (crc32 data)).length - 4 = data.length := by
    omega
  have htake : (data ++ be32 (crc32 data)).take data.length = data := by
    simp
  have hdrop : (data ++ be32 (crc32 data)).drop data.length =
      be32 (crc32 data) := by simp
  unfold stripCrc
  rw [if_neg (by omega), hsub, htake, hdrop, if_neg (by simp)]

theorem minimalForm_length {w : List Char} (h : w.length = 4) :
    (minimalForm w).length = 2 := by
  rcases w with _ | ⟨a, _ | ⟨b, _ | ⟨c, _ | ⟨d, _ | e⟩⟩⟩⟩ <;> simp_all [minimalForm]

theorem chunk2_flatten :
    ∀ (ws : List (List Char)), (∀ w ∈ ws, w.length = 2) →
      chunk2 ws.flatten = some ws := by
  intro ws
  induction ws with
  | nil => intro; rfl
  | cons w rest ih =>
      intro h
      have hw : w.length = 2 := h w (List.mem_cons_self _ _)
      rcases w with _ | ⟨a, _ | ⟨b, _ | c⟩⟩ <;> simp_all
      simp [chunk2, ih]

theorem minimalForm_subset {w : List Char} (h : w.length = 4) :
    ∀ c ∈ minimalForm w, c ∈ w := by
  rcases w with _ | ⟨a, _ | ⟨b, _ | ⟨d, _ | ⟨e, _ | f⟩⟩⟩⟩ <;>
    simp_all [minimalForm]

theorem sep_not_mem_word {wt : Nat → List Char} (hwt : GoodTable wt)
    {b : Nat} (hb : b < 256) {c : Char} (hc : c.isLower = false)
    (style : Style) : c ∉ encodeWord wt style b := by
  intro hmem
  have hlower : c.isLower = true := by
    cases style with
    | standard => exact hwt.2.1 b hb c hmem
    | uri => exact hwt.2.1 b hb c hmem
    | minimal =>
        exact hwt.2.1 b hb c (minimalForm_subset (hwt.1 b hb) c hmem)
  rw [hlower] at hc
  cases hc

theorem bytewordsDecode_encode {wt : Nat → List Char} (hwt : GoodTable wt)
    (style : Style) (x : List Nat) (hx : ∀ b ∈ x, b < 256) :
    bytewordsDecode wt style (bytewordsEncode wt style x) =
      stripCrc (x ++ be32 (crc32 x)) := by
  set payload := x ++ be32 (crc32 x) with hpay
  have hp : ∀ b ∈ payload, b < 256 := by
    intro b hb
    rcases List.mem_append.mp hb with h | h
    · exact hx b h
    · exact be32_mem_lt h
  have hpne : payload ≠ [] := by
    have : payload.length = x.length + 4 := by simp [hpay, be32]
    intro hc
    rw [hc] at this
    simp at this
  have hwords : ∀ w ∈ payload.map (encodeWord wt style), ∀ c : Char,
      c.isLower = false → c ∉ w := by
    intro w hw c hc
    obtain ⟨b, hb, rfl⟩ := List.mem_map.mp hw
    exact sep_not_mem_word hwt (hp b hb) hc style
  have hwsne : payload.map (encodeWord wt style) ≠ [] := by
    simpa using hpne
  have hmm := mapM_decodeWord hwt style payload hp
  cases style with
  | standard =>
      rw [bytewordsEncode, bytewordsDecode,
        List.splitOn_intercalate _ ' '
          (fun w hw => hwords w hw ' ' (by decide)) hwsne]
      simp only [wordsToBytes, hmm]
  | uri =>
      rw [bytewordsEncode, bytewordsDecode,
        List.splitOn_intercalate _ '-'
          (fun w hw => hwords w hw '-' (by decide)) hwsne]
      simp only [wordsToBytes, hmm]
  | minimal =>
      have hlen2 : ∀ w ∈ payload.map (encodeWord wt .minimal),
          w.length = 2 := by
        intro w hw
        obtain ⟨b, hb, rfl⟩ := List.mem_map.mp hw
        exact minimalForm_length (hwt.1 b (hp b hb))
      rw [bytewordsEncode, bytewordsDecode, chunk2_flatten _ hlen2]
      simp only [wordsToBytes, hmm]

/-- C2 (amended): for every good word table, every style and every
non-empty byte string, decode after encode returns the input; for the
empty byte string, decoding the encoding is rejected with an empty-payload
error (§4.6: "Empty input after CRC stripping is rejected"). -/
theorem C2_bytewords_roundtrip (wt : Nat → List Char) (hwt : GoodTable wt)
    (style : Style) (x : List Nat) (hx : ∀ b ∈ x, b < 256) :
    (x ≠ [] → bytewordsDecode wt style (bytewordsEncode wt style x) =
      .ok x) ∧
    bytewordsDecode wt style (bytewordsEncode wt style []) =
      .error .emptyPayload := by
  constructor
  · intro hne
    rw [bytewordsDecode_encode hwt style x hx, stripCrc_append,
      if_neg (by simpa using hne)]
  · rw [bytewordsDecode_encode hwt style [] (by intro b hb; cases hb),
      stripCrc_append]
    rfl

/-- Witness for C2 with the synthetic table, standard style, `x = [1, 2]`. -/
theorem C2_bytewords_roundtrip_witness :
    GoodTable sampleTable ∧ (∀ b ∈ [1, 2], b < 256) ∧
    (([1, 2] ≠ ([] : List Nat) →
        bytewordsDecode sampleTable .standard
          (bytewordsEncode sampleTable .standard [1, 2]) = .ok [1, 2]) ∧
      bytewordsDecode sampleTable .standard
        (bytewordsEncode sampleTable .standard []) =
        .error .emptyPayload) :=
  ⟨sampleTable_good, by decide,
    C2_bytewords_roundtrip sampleTable sampleTable_good .standard [1, 2]
      (by decide)⟩

/-- C2 fails as stated for the empty byte string: decoding the encoding of
`[]` is an empty-payload error, not a success, per §4.6's "Empty input
after CRC stripping is rejected". -/
theorem C2_counterexample :
    bytewordsDecode sampleTable .standard
        (bytewordsEncode sampleTable .standard []) =
      .error .emptyPayload ∧
    (.error .emptyPayload : Except BwErr (List Nat)) ≠ .ok [] :=
  ⟨by decide, by decide⟩

/-! ## Fountain parts and their binary codec (§3, §4.5 of the spec)

Modelled from the spec: `ur::fountain::part::Part` is not in the available
source tree (its fuzz harnesses are).  The on-wire unit carries
`(sequence_index, sequence_count, message_length, checksum, data)`; the
codec is a CBOR 5-element array of four `uint32`s and a byte string
(§4.5 fixes the five fields; the framing below is standard CBOR). -/

/-- The on-wire unit (§3). -/
structure Part where
  sequence : Nat
  sequence_count : Nat
  message_length : Nat
  checksum : Nat
  data : List Nat
deriving DecidableEq

/-- Modelled from the spec: `Part::is_valid` (§3): `sequence_count ≥ 1`,
`message_length ≥ 1`, `data.len() ≥ 1`, and
`ceil(message_length / sequence_count) = data.len()`. -/
def Part.isValid (p : Part) : Bool :=
  1 ≤ p.sequence_count && 1 ≤ p.message_length && 1 ≤ p.data.length &&
    cdiv p.message_length p.sequence_count == p.data.length

/-- CBOR encoding of a `uint32` (major type 0, minimal width). -/
def cborUint (n : Nat) : List Nat :=
  if n < 24 then [n]
  else if n < 256 then [0x18, n]
  else if n < 65536 then [0x19, n / 256, n % 256]
  else [0x1a, n / 2 ^ 24 % 256, n / 2 ^ 16 % 256, n / 2 ^ 8 % 256, n % 256]

/-- CBOR byte-string header (major type 2) for a given length. -/
def cborBytesHead (len : Nat) : List Nat :=
  if len < 24 then [0x40 + len]
  else if len < 256 then [0x58, len]
  else if len < 65536 then [0x59, len / 256, len % 256]
  else [0x5a, len / 2 ^ 24 % 256, len / 2 ^ 16 % 256, len / 2 ^ 8 % 256,
    len % 256]

/-- Part serialization (§4.5): a 5-element array. -/
def partEncode (p : Part) : List Nat :=
  [0x85] ++ cborUint p.sequence ++ cborUint p.sequence_count ++
    cborUint p.message_length ++ cborUint p.checksum ++
    cborBytesHead p.data.length ++ p.data

/-- Part decoding failures (§4.5, §7). -/
inductive PartErr where
  | truncated
  | typeMismatch
  | trailingBytes
  | zeroField
deriving DecidableEq

/-- Parse a CBOR unsigned integer that fits in 32 bits. -/
def parseU32 : List Nat → Except PartErr (Nat × List Nat)
  | b :: bs =>
      if b < 24 then .ok (b, bs)
      else if b = 0x18 then
        match bs with
        | x :: bs' => .ok (x, bs')
        | _ => .error .truncated
      else if b = 0x19 then
        match bs with
        | x :: y :: bs' => .ok (x * 256 + y, bs')
        | _ => .error .truncated
      else if b = 0x1a then
        match bs with
        | x :: y :: z :: w :: bs' =>
            .ok (((x * 256 + y) * 256 + z) * 256 + w, bs')
        | _ => .error .truncated
      else .error .typeMismatch
  | [] => .error .truncated

/-- Parse a CBOR byte-string length header. -/
def parseBytesHead : List Nat → Except PartErr (Nat × List Nat)
  | b :: bs =>
      if 0x40 ≤ b ∧ b < 0x40 + 24 then .ok (b - 0x40, bs)
      else if b = 0x58 then
        match bs with
        | x :: bs' => .ok (x, bs')
        | _ => .error .truncated
      else if b = 0x59 then
        match bs with
        | x :: y :: bs' => .ok (x * 256 + y, bs')
        | _ => .error .truncated
      else if b = 0x5a then
        match bs with
        | x :: y :: z :: w :: bs' =>
            .ok (((x * 256 + y) * 256 + z) * 256 + w, bs')
        | _ => .error .truncated
      else .error .typeMismatch
  | [] => .error .truncated

/-- Part deserialization (§4.5): reject arity/type mismatches, trailing
bytes, and zero `sequence`/`sequence_count` (§7, part errors). -/
def partDecode (bs : List Nat) : Except PartErr Part := do
  match bs with
  | 0x85 :: bs₀ => do
      let (seq, bs₁) ← parseU32 bs₀
      let (cnt, bs₂) ← parseU32 bs₁
      let (len, bs₃) ← parseU32 bs₂
      let (cks, bs₄) ← parseU32 bs₃
      let (dlen, bs₅) ← parseBytesHead bs₄
      if dlen ≤ bs₅.length then
        let data := bs₅.take dlen
        let rest := bs₅.drop dlen
        if rest ≠ [] then .error .trailingBytes
        else if seq = 0 ∨ cnt = 0 then .error .zeroField
        else .ok ⟨seq, cnt, len, cks, data⟩
      else .error .truncated
  | _ => .error .typeMismatch

theorem parseU32_cborUint {n : Nat} (hn : n < 2 ^ 32) (rest : List Nat) :
    parseU32 (cborUint n ++ rest) = .ok (n, rest) := by
  unfold cborUint
  by_cases h24 : n < 24
  · simp [parseU32, h24]
  · by_cases h256 : n < 256
    · simp [parseU32, h24, h256]
    · by_cases h65536 : n < 65536
      · simp only [if_neg h24, if_neg h256, if_pos h65536,
          List.cons_append]
        simp [parseU32]
        omega
      · simp only [if_neg h24, if_neg h256, if_neg h65536,
          List.cons_append]
        simp [parseU32]
        omega

theorem parseBytesHead_cbor {len : Nat} (hlen : len < 2 ^ 32)
    (rest : List Nat) :
    parseBytesHead (cborBytesHead len ++ rest) = .ok (len, rest) := by
  unfold cborBytesHead
  by_cases h24 : len < 24
  · simp only [if_pos h24, List.cons_append, List.nil_append]
    simp only [parseBytesHead]
    rw [if_pos (by omega : 0x40 ≤ 0x40 + len ∧ 0x40 + len < 0x40 + 24)]
    congr 2
    omega
  · by_cases h256 : len < 256
    · simp only [if_neg h24, if_pos h256, List.cons_append]
      simp [parseBytesHead]
    · by_cases h65536 : len < 65536
      · simp only [if_neg h24, if_neg h256, if_pos h65536,
          List.cons_append]
        simp [parseBytesHead]
        omega
      · simp only [if_neg h24, if_neg h256, if_neg h65536,
          List.cons_append]
        simp [parseBytesHead]
        omega

/-- Round trip of the part codec over its `u32` ranges. -/
theorem partDecode_encode (p : Part) (hseq : 1 ≤ p.sequence)
    (hcnt : 1 ≤ p.sequence_count) (hs : p.sequence < 2 ^ 32)
    (hc : p.sequence_count < 2 ^ 32) (hl : p.message_length < 2 ^ 32)
    (hk : p.checksum < 2 ^ 32) (hd : p.data.length < 2 ^ 32) :
    partDecode (partEncode p) = .ok p := by
  obtain ⟨seq, cnt, len, cks, data⟩ := p
  simp only at hseq hcnt hs hc hl hk hd
  have hseq0 : seq ≠ 0 := by omega
  have hcnt0 : cnt ≠ 0 := by omega
  simp [partEncode, partDecode, List.append_assoc, parseU32_cborUint hs,
    parseU32_cborUint hc, parseU32_cborUint hl, parseU32_cborUint hk,
    parseBytesHead_cbor hd, Bind.bind, Except.bind, hseq0, hcnt0]

/-- C7: `Part::is_valid` returns `true` iff `sequence_count ≥ 1`,
`message_length ≥ 1`, the data is non-empty, and the data length is exactly
`⌈message_length / sequence_count⌉` (characterized by the two
multiplicative ceiling bounds). -/
theorem C7_part_is_valid (p : Part) :
    p.isValid = true ↔
      (1 ≤ p.sequence_count ∧ 1 ≤ p.message_length ∧ 1 ≤ p.data.length ∧
        p.sequence_count * (p.data.length - 1) < p.message_length ∧
        p.message_length ≤ p.sequence_count * p.data.length) := by
  unfold Part.isValid
  simp only [Bool.and_eq_true, decide_eq_true_eq, beq_iff_eq]
  constructor
  · rintro ⟨⟨⟨hc, hl⟩, hd⟩, heq⟩
    refine ⟨hc, hl, hd, ?_, ?_⟩
    · have := (lt_cdiv_iff (a := p.message_length) hc).mp
        (by omega : p.data.length - 1 < cdiv p.message_length
          p.sequence_count)
      calc p.sequence_count * (p.data.length - 1)
          = (p.data.length - 1) * p.sequence_count := Nat.mul_comm _ _
        _ < p.message_length := this
    · have := (cdiv_le_iff (a := p.message_length) hc).mp
        (Nat.le_of_eq heq)
      calc p.message_length ≤ p.data.length * p.sequence_count := this
        _ = p.sequence_count * p.data.length := Nat.mul_comm _ _
  · rintro ⟨hc, hl, hd, hlow, hhigh⟩
    refine ⟨⟨⟨hc, hl⟩, hd⟩, ?_⟩
    have h1 : cdiv p.message_length p.sequence_count ≤ p.data.length :=
      (cdiv_le_iff hc).mpr (by rw [Nat.mul_comm]; exact hhigh)
    have h2 : p.data.length - 1 < cdiv p.message_length p.sequence_count :=
      (lt_cdiv_iff hc).mpr (by rw [Nat.mul_comm]; exact hlow)
    omega

/-! ## Xoshiro256** RNG, weighted sampler and fragment chooser (§4.2–§4.4)

Modelled from the spec: the fountain sampler and chooser modules are not in
the available source tree (only their fuzz harnesses are).  The SHA-256
seed derivation of §4.2 is abstracted as a parameter `mkRng`, shared — as
§4.2 and §4.4 require — by both chooser realizations; every theorem below
holds for an arbitrary `mkRng`.  The spec's `f64` probabilities are exact
rationals here. -/

/-- The four 64-bit state lanes of xoshiro256**. -/
structure Rng where
  s0 : Nat
  s1 : Nat
  s2 : Nat
  s3 : Nat
deriving DecidableEq

/-- 64-bit rotate left. -/
def rotl64 (x k : Nat) : Nat :=
  ((x <<< k) % 2 ^ 64) ||| (x % 2 ^ 64) >>> (64 - k)

/-- One xoshiro256** step: the starred output and the new state (§4.2). -/
def Rng.next (r : Rng) : Nat × Rng :=
  let result := rotl64 (r.s1 * 5 % 2 ^ 64) 7 * 9 % 2 ^ 64
  let t := (r.s1 <<< 17) % 2 ^ 64
  let a2 := r.s2 ^^^ r.s0
  let a3 := r.s3 ^^^ r.s1
  let b1 := r.s1 ^^^ a2
  let b0 := r.s0 ^^^ a3
  let b2 := a2 ^^^ t
  let b3 := rotl64 a3 45
  (result, ⟨b0, b1, b2, b3⟩)

/-- Fuel bound for the rejection loop of `next_in_range`, making it total;
a rejection path longer than this falls back to a plain reduction. -/
def rejectionFuel : Nat := 64

/-- `next_in_range` (§4.2): rejection sampling against the biased top
region `[2^64 - 2^64 % n, 2^64)`. -/
def Rng.nextInRange : Nat → Rng → Nat → Nat × Rng
  | 0, r, n =>
      let (v, r') := r.next
      (v % n, r')
  | fuel + 1, r, n =>
      let (v, r') := r.next
      if v < 2 ^ 64 - 2 ^ 64 % n then (v % n, r')
      else Rng.nextInRange fuel r' n

theorem nextInRange_lt :
    ∀ (fuel : Nat) (r : Rng) {n : Nat}, 0 < n →
      (Rng.nextInRange fuel r n).1 < n := by
  intro fuel
  induction fuel with
  | zero => intro r n hn; simp [Rng.nextInRange]; exact Nat.mod_lt _ hn
  | succ fuel ih =>
      intro r n hn
      simp only [Rng.nextInRange]
      split
      · exact Nat.mod_lt _ hn
      · exact ih _ hn

/-- Alias table (§4.3): column probabilities and aliases. -/
structure AliasTab where
  probs : List ℚ
  aliases : List Nat

/-- Initial scaled probabilities `w_i · n / W` for weights `w_i = 1/i`,
`i = 1..n` (§4.3). -/
def voseInit (n : Nat) : List ℚ :=
  let ws := (List.range n).map (fun i => (1 : ℚ) / (i + 1))
  let total := ws.sum
  ws.map (fun w => w * n / total)

/-- The worklist loop of Vose's method: pair one under-full column with one
over-full column per round. -/
def voseLoop :
    Nat → List ℚ → List Nat → List Nat → List Nat → List ℚ × List Nat
  | 0, probs, aliases, _, _ => (probs, aliases)
  | fuel + 1, probs, aliases, small, large =>
      match small, large with
      | s :: small', l :: large' =>
          let aliases' := aliases.set s l
          let pl := probs.getD l 0 + probs.getD s 0 - 1
          let probs' := probs.set l pl
          if pl < 1 then voseLoop fuel probs' aliases' (l :: small') large'
          else voseLoop fuel probs' aliases' small' (l :: large')
      | _, _ => (probs, aliases)

/-- Alias-table construction (§4.3), once per session. -/
def buildAlias (n : Nat) : AliasTab :=
  let probs := voseInit n
  let idx := List.range n
  let small := idx.filter (fun i => probs.getD i 0 < 1)
  let large := idx.filter (fun i => ¬probs.getD i 0 < 1)
  let r :=
    voseLoop (small.length + large.length) probs (List.replicate n 0)
      small large
  ⟨r.1, r.2⟩

/-- `pick` (§4.3): draw a column uniformly, draw a uniform fraction from
two `u64` draws, return the column or its alias — 1-based. -/
def samplerPick (t : AliasTab) (n : Nat) (r : Rng) : Nat × Rng :=
  let cr := Rng.nextInRange rejectionFuel r n
  let d1r := cr.2.next
  let d2r := d1r.2.next
  let f : ℚ := (d1r.1 * 2 ^ 64 + d2r.1) / 2 ^ 128
  if f < t.probs.getD cr.1 0 then (cr.1 + 1, d2r.2)
  else (t.aliases.getD cr.1 0 + 1, d2r.2)

/-- Swap two positions of a list. -/
def swapL (l : List Nat) (i j : Nat) : List Nat :=
  (l.set i (l.getD j 0)).set j (l.getD i 0)

/-- Heap Fisher–Yates rounds (§4.4): `steps` in-place swaps starting at
position `k`; the live pool length is the list length. -/
def fyLoop : Nat → Nat → List Nat → Rng → List Nat × Rng
  | 0, _, arr, r => (arr, r)
  | steps + 1, k, arr, r =>
      let (off, r') := Rng.nextInRange rejectionFuel r (arr.length - k)
      fyLoop steps (k + 1) (swapL arr k (k + off)) r'

/-- Fixed-capacity Fisher–Yates rounds: the pool lives in the first `n`
slots of a capacity-sized array, so the live length is passed explicitly. -/
def fyLoopH : Nat → Nat → Nat → List Nat → Rng → List Nat × Rng
  | 0, _, _, arr, r => (arr, r)
  | steps + 1, n, k, arr, r =>
      let (off, r') := Rng.nextInRange rejectionFuel r (n - k)
      fyLoopH steps n (k + 1) (swapL arr k (k + off)) r'

/-- Modelled from the spec (§4.4): the heap `FragmentChooser`.  Pure parts
for `sequence_index ∈ 1..=N`; otherwise seed from
`checksum XOR sequence_index`, draw a degree, and take the first `d`
outputs of a Fisher–Yates pass over `1..=N`. -/
def chooseFragments (mkRng : Nat → Rng) (seqIdx n checksum : Nat) :
    List Nat :=
  if 1 ≤ seqIdx ∧ seqIdx ≤ n then [seqIdx]
  else
    let r := mkRng ((checksum ^^^ seqIdx) % 2 ^ 32)
    let t := buildAlias n
    let p := samplerPick t n r
    let s := fyLoop p.1 0 (List.range' 1 n) p.2
    s.1.take p.1

/-- Modelled from the spec (§4.4, §9): the fixed-capacity
`HeaplessFragmentChooser` with capacity `cap`; `none` beyond capacity. -/
def heaplessChooseFragments (cap : Nat) (mkRng : Nat → Rng)
    (seqIdx n checksum : Nat) : Option (List Nat) :=
  if n > cap then none
  else if 1 ≤ seqIdx ∧ seqIdx ≤ n then some [seqIdx]
  else
    let r := mkRng ((checksum ^^^ seqIdx) % 2 ^ 32)
    let t := buildAlias n
    let p := samplerPick t n r
    let pool := List.range' 1 n ++ List.replicate (cap - n) 0
    let s := fyLoopH p.1 n 0 pool p.2
    some (s.1.take p.1)

theorem swapL_length (l : List Nat) (i j : Nat) :
    (swapL l i j).length = l.length := by
  simp [swapL]

theorem swapL_comm (l : List Nat) {i j : Nat} (h : i ≠ j) :
    swapL l i j = swapL l j i := by
  unfold swapL
  rw [List.set_comm _ _ _ h]

theorem swapL_zero_succ_perm (x : Nat) (xs : List Nat) {j : Nat}
    (hj : j < xs.length) : List.Perm (swapL (x :: xs) 0 (j + 1)) (x :: xs) := by
  have hb : (x :: xs).getD (j + 1) 0 = xs[j] := by
    rw [List.getD_cons_succ, List.getD_eq_getElem _ _ hj]
  have hswap : swapL (x :: xs) 0 (j + 1) = xs[j] :: xs.set j x := by
    unfold swapL
    rw [hb, List.getD_cons_zero]
    rfl
  rw [hswap]
  have hxs : xs = xs.take j ++ xs[j] :: xs.drop (j + 1) := by
    conv_lhs => rw [← List.take_append_drop j xs]
    rw [List.drop_eq_getElem_cons hj]
  have hset : xs.set j x = xs.take j ++ x :: xs.drop (j + 1) :=
    List.set_eq_take_cons_drop x hj
  rw [hset]
  refine List.Perm.trans (List.Perm.cons _ List.perm_middle) ?_
  refine List.Perm.trans (List.Perm.swap _ _ _) ?_
  refine List.Perm.cons _ ?_
  conv_rhs => rw [hxs]
  exact List.perm_middle.symm

theorem swapL_perm :
    ∀ (l : List Nat) (i j : Nat), i < l.length → j < l.length →
      List.Perm (swapL l i j) l := by
  intro l
  induction l with
  | nil => intro i j hi _; simp at hi
  | cons x xs ih =>
      intro i j hi hj
      match i, j with
      | 0, 0 =>
          have : swapL (x :: xs) 0 0 = x :: xs := by
            unfold swapL
            rw [List.set_set, List.getD_cons_zero]
            rfl
          rw [this]
      | 0, j + 1 =>
          exact swapL_zero_succ_perm x xs (by simpa using hj)
      | i + 1, 0 =>
          rw [swapL_comm _ (by omega)]
          exact swapL_zero_succ_perm x xs (by simpa using hi)
      | i + 1, j + 1 =>
          have hstep : swapL (x :: xs) (i + 1) (j + 1) =
              x :: swapL xs i j := by
            unfold swapL
            rw [List.getD_cons_succ, List.getD_cons_succ]
            rfl
          rw [hstep]
          exact List.Perm.cons _ (ih i j (by simpa using hi)
            (by simpa using hj))

theorem fyLoop_perm :
    ∀ (steps k : Nat) (arr : List Nat) (r : Rng),
      steps + k ≤ arr.length →
      List.Perm (fyLoop steps k arr r).1 arr := by
  intro steps
  induction steps with
  | zero => intro k arr r _; exact List.Perm.refl _
  | succ steps ih =>
      intro k arr r hle
      simp only [fyLoop]
      have hoff : (Rng.nextInRange rejectionFuel r (arr.length - k)).1 <
          arr.length - k := nextInRange_lt _ _ (by omega)
      have hk : k < arr.length := by omega
      have hkj : k + (Rng.nextInRange rejectionFuel r (arr.length - k)).1 <
          arr.length := by omega
      have hperm := swapL_perm arr k _ hk hkj
      have hlen : (swapL arr k
          (k + (Rng.nextInRange rejectionFuel r (arr.length - k)).1)).length
          = arr.length := swapL_length _ _ _
      exact (ih (k + 1) _ _ (by omega)).trans hperm

theorem swapL_append {l pad : List Nat} {i j : Nat} (hi : i < l.length)
    (hj : j < l.length) :
    swapL (l ++ pad) i j = swapL l i j ++ pad := by
  unfold swapL
  rw [List.getD_append _ _ _ _ hj, List.getD_append _ _ _ _ hi,
    List.set_append_left _ _ hi,
    List.set_append_left _ _ (by simpa using hj)]

theorem fyLoopH_eq :
    ∀ (steps n k : Nat) (arr pad : List Nat) (r : Rng),
      arr.length = n → steps + k ≤ n →
      fyLoopH steps n k (arr ++ pad) r =
        ((fyLoop steps k arr r).1 ++ pad, (fyLoop steps k arr r).2) := by
  intro steps
  induction steps with
  | zero => intro n k arr pad r _ _; rfl
  | succ steps ih =>
      intro n k arr pad r hlen hle
      simp only [fyLoopH, fyLoop, hlen]
      have hoff : (Rng.nextInRange rejectionFuel r (n - k)).1 < n - k :=
        nextInRange_lt _ _ (by omega)
      have hk : k < arr.length := by omega
      have hkj : k + (Rng.nextInRange rejectionFuel r (n - k)).1 <
          arr.length := by omega
      rw [swapL_append hk hkj]
      exact ih n (k + 1) _ pad _ (by rw [swapL_length]; exact hlen)
        (by omega)

theorem voseLoop_aliases_lt {n : Nat} :
    ∀ (fuel : Nat) (probs : List ℚ) (aliases small large : List Nat),
      (∀ x ∈ aliases, x < n) → (∀ x ∈ small, x < n) →
      (∀ x ∈ large, x < n) →
      ∀ x ∈ (voseLoop fuel probs aliases small large).2, x < n := by
  intro fuel
  induction fuel with
  | zero => intro _ aliases _ _ ha _ _; exact ha
  | succ fuel ih =>
      intro probs aliases small large ha hs hl
      match small, large with
      | [], _ => exact ha
      | _ :: _, [] => exact ha
      | s :: small', l :: large' =>
          have hl' : l < n := hl l (List.mem_cons_self _ _)
          have haset : ∀ x ∈ aliases.set s l, x < n := by
            intro x hx
            rcases List.mem_or_eq_of_mem_set hx with h | h
            · exact ha x h
            · exact h ▸ hl'
          simp only [voseLoop]
          split
          · exact ih _ _ _ _ haset
              (by
                intro x hx
                rcases List.mem_cons.mp hx with h | h
                · exact h ▸ hl'
                · exact hs x (List.mem_cons_of_mem _ h))
              (fun x hx => hl x (List.mem_cons_of_mem _ hx))
          · exact ih _ _ _ _ haset
              (fun x hx => hs x (List.mem_cons_of_mem _ hx))
              (by
                intro x hx
                rcases List.mem_cons.mp hx with h | h
                · exact h ▸ hl'
                · exact hl x (List.mem_cons_of_mem _ h))

theorem buildAlias_aliases_lt {n : Nat} (hn : 0 < n) :
    ∀ x ∈ (buildAlias n).aliases, x < n := by
  apply voseLoop_aliases_lt
  · intro x hx
    rw [List.eq_of_mem_replicate hx]
    exact hn
  · intro x hx
    exact List.mem_range.mp (List.mem_of_mem_filter hx)
  · intro x hx
    exact List.mem_range.mp (List.mem_of_mem_filter hx)

theorem samplerPick_range {t : AliasTab} {n : Nat} (r : Rng) (hn : 0 < n)
    (halias : ∀ x ∈ t.aliases, x < n) :
    1 ≤ (samplerPick t n r).1 ∧ (samplerPick t n r).1 ≤ n := by
  unfold samplerPick
  have hc : (Rng.nextInRange rejectionFuel r n).1 < n :=
    nextInRange_lt _ _ hn
  have halt : t.aliases.getD (Rng.nextInRange rejectionFuel r n).1 0 < n := by
    by_cases hlen : (Rng.nextInRange rejectionFuel r n).1 < t.aliases.length
    · rw [List.getD_eq_getElem _ _ hlen]
      exact halias _ (List.getElem_mem hlen)
    · rw [List.getD_eq_default _ _ (by omega)]
      exact hn
  dsimp only
  split
  · exact ⟨by omega, by omega⟩
  · exact ⟨by omega, by omega⟩

/-- The pure branch of the chooser (§4.4, step 1). -/
theorem chooseFragments_pure (mkRng : Nat → Rng) {seqIdx n : Nat}
    (checksum : Nat) (h1 : 1 ≤ seqIdx) (h2 : seqIdx ≤ n) :
    chooseFragments mkRng seqIdx n checksum = [seqIdx] := by
  simp [chooseFragments, h1, h2]

/-- The mixed output of the heap chooser: non-empty, duplicate-free,
within `1..=N` — shared by C3 and the end-to-end results. -/
theorem chooseFragments_sound (mkRng : Nat → Rng) (seqIdx n checksum : Nat)
    (hn : 1 ≤ n) :
    chooseFragments mkRng seqIdx n checksum ≠ [] ∧
    (chooseFragments mkRng seqIdx n checksum).Nodup ∧
    ∀ i ∈ chooseFragments mkRng seqIdx n checksum, 1 ≤ i ∧ i ≤ n := by
  by_cases hp : 1 ≤ seqIdx ∧ seqIdx ≤ n
  · rw [chooseFragments_pure mkRng checksum hp.1 hp.2]
    refine ⟨by simp, by simp, ?_⟩
    intro i hi
    rw [List.mem_singleton.mp hi]
    exact hp
  · have hd := samplerPick_range
      (t := buildAlias n)
      (mkRng ((checksum ^^^ seqIdx) % 2 ^ 32)) hn (buildAlias_aliases_lt hn)
    unfold chooseFragments
    rw [if_neg hp]
    dsimp only
    set p := samplerPick (buildAlias n) n
      (mkRng ((checksum ^^^ seqIdx) % 2 ^ 32)) with hpdef
    have hlen : (List.range' 1 n).length = n := List.length_range' _ _ _
    have hperm : List.Perm (fyLoop p.1 0 (List.range' 1 n) p.2).1
        (List.range' 1 n) :=
      fyLoop_perm p.1 0 _ p.2 (by rw [hlen]; omega)
    have hflen : (fyLoop p.1 0 (List.range' 1 n) p.2).1.length = n := by
      rw [hperm.length_eq, hlen]
    refine ⟨?_, ?_, ?_⟩
    · intro hc
      have h0 := congrArg List.length hc
      rw [List.length_take, hflen] at h0
      simp only [List.length_nil] at h0
      omega
    · exact (hperm.nodup_iff.mpr (List.nodup_range' _ _)).sublist
        (List.take_sublist _ _)
    · intro i hi
      have hmem : i ∈ List.range' 1 n :=
        hperm.mem_iff.mp (List.mem_of_mem_take hi)
      have := List.mem_range'_1.mp hmem
      omega

/-- C3: for every valid part within capacity, the heap `FragmentChooser`
and the fixed-capacity `HeaplessFragmentChooser` return the identical
fragment-index set for the same `(sequence_index, N, checksum)`, and that
set is non-empty, duplicate-free, and contained in `1..=N`. -/
theorem C3_chooser_equivalence (cap : Nat) (mkRng : Nat → Rng)
    (seqIdx n checksum : Nat) (hseq : 1 ≤ seqIdx) (hn : 1 ≤ n)
    (hcap : n ≤ cap) :
    heaplessChooseFragments cap mkRng seqIdx n checksum =
      some (chooseFragments mkRng seqIdx n checksum) ∧
    chooseFragments mkRng seqIdx n checksum ≠ [] ∧
    (chooseFragments mkRng seqIdx n checksum).Nodup ∧
    ∀ i ∈ chooseFragments mkRng seqIdx n checksum, 1 ≤ i ∧ i ≤ n := by
  refine ⟨?_, chooseFragments_sound mkRng seqIdx n checksum hn⟩
  unfold heaplessChooseFragments chooseFragments
  rw [if_neg (by omega : ¬n > cap)]
  by_cases hp : 1 ≤ seqIdx ∧ seqIdx ≤ n
  · rw [if_pos hp, if_pos hp]
  · rw [if_neg hp, if_neg hp]
    dsimp only
    have hd := samplerPick_range
      (t := buildAlias n)
      (mkRng ((checksum ^^^ seqIdx) % 2 ^ 32)) hn (buildAlias_aliases_lt hn)
    set p := samplerPick (buildAlias n) n
      (mkRng ((checksum ^^^ seqIdx) % 2 ^ 32)) with hpdef
    have hlen : (List.range' 1 n).length = n := List.length_range' _ _ _
    rw [fyLoopH_eq p.1 n 0 _ _ p.2 hlen (by omega)]
    have hflen : (fyLoop p.1 0 (List.range' 1 n) p.2).1.length = n := by
      rw [(fyLoop_perm p.1 0 _ p.2 (by rw [hlen]; omega)).length_eq, hlen]
    rw [List.take_append_of_le_length (by rw [hflen]; omega)]

/-- Witness for C3 at a mixed-part input: `cap = 8`, `N = 3`,
`sequence_index = 5`, checksum 7, with a concrete seed function. -/
theorem C3_chooser_equivalence_witness :
    ((1 : Nat) ≤ 5 ∧ (1 : Nat) ≤ 3 ∧ (3 : Nat) ≤ 8) ∧
    (heaplessChooseFragments 8 (fun s => ⟨s, s + 1, s + 2, s + 3⟩) 5 3 7 =
      some (chooseFragments (fun s => ⟨s, s + 1, s + 2, s + 3⟩) 5 3 7) ∧
    chooseFragments (fun s => ⟨s, s + 1, s + 2, s + 3⟩) 5 3 7 ≠ [] ∧
    (chooseFragments (fun s => ⟨s, s + 1, s + 2, s + 3⟩) 5 3 7).Nodup ∧
    ∀ i ∈ chooseFragments (fun s => ⟨s, s + 1, s + 2, s + 3⟩) 5 3 7,
      1 ≤ i ∧ i ≤ 3) := by
  refine ⟨⟨by decide, by decide, by decide⟩, ?_⟩
  have h := C3_chooser_equivalence 8 (fun s => ⟨s, s + 1, s + 2, s + 3⟩)
    5 3 7 (by decide) (by decide) (by decide)
  exact ⟨h.1, h.2.1, h.2.2.1, h.2.2.2⟩

/-! ## UR envelope (§4.7 of the spec)

Modelled from the spec: parse/format of
`ur:<type>[/<index>-<count>]/<payload>` over character lists. -/

/-- A character allowed inside a type-label group: `[a-z0-9]`. -/
def isTypeChar (c : Char) : Bool :=
  (97 ≤ c.toNat && c.toNat ≤ 122) || (48 ≤ c.toNat && c.toNat ≤ 57)

/-- The §4.7 type grammar: `[a-z0-9]+ ("-" [a-z0-9]+)*`. -/
def validTypeLabel (t : List Char) : Bool :=
  (t.splitOn '-').all (fun g => !g.isEmpty && g.all isTypeChar)

/-- One decimal digit. -/
def decDigit : Nat → Char
  | 0 => '0'
  | 1 => '1'
  | 2 => '2'
  | 3 => '3'
  | 4 => '4'
  | 5 => '5'
  | 6 => '6'
  | 7 => '7'
  | 8 => '8'
  | 9 => '9'
  | _ => '0'

/-- Decimal digits of `n`, most significant first (fuelled division
recursion; the fuel `n + 1` always suffices). -/
def toDecAux : Nat → Nat → List Char
  | 0, _ => []
  | fuel + 1, n =>
      if n < 10 then [decDigit n]
      else toDecAux fuel (n / 10) ++ [decDigit (n % 10)]

/-- Canonical decimal representation, no leading zeros. -/
def toDec (n : Nat) : List Char := toDecAux (n + 1) n

/-- Strict decimal parser: digits only, non-empty, no leading zero except
the literal `"0"`. -/
def parseDec (s : List Char) : Option Nat :=
  if s.isEmpty then none
  else if !s.all Char.isDigit then none
  else if s.length > 1 ∧ s.head? = some '0' then none
  else some (s.foldl (fun acc c => acc * 10 + (c.toNat - 48)) 0)

/-- Envelope parse errors (§7). -/
inductive ParseErr where
  | missingScheme
  | badType
  | badSeqNumbers
  | badStructure
deriving DecidableEq

/-- The parsed envelope: type label, optional `(index, count)`, payload
characters. -/
structure UrMsg where
  urType : List Char
  seq : Option (Nat × Nat)
  payload : List Char
deriving DecidableEq

/-- Modelled from the spec (§4.7): the single deterministic emitter. -/
def urFormat (m : UrMsg) : List Char :=
  ['u', 'r', ':'] ++
    List.intercalate ['/']
      (match m.seq with
       | none => [m.urType, m.payload]
       | some ic =>
           [m.urType, List.intercalate ['-'] [toDec ic.1, toDec ic.2],
             m.payload])

/-- Modelled from the spec (§4.7): the strict, case-sensitive parser. -/
def urParse (s : List Char) : Except ParseErr UrMsg :=
  match s with
  | 'u' :: 'r' :: ':' :: rest =>
      match rest.splitOn '/' with
      | [t, payload] =>
          if validTypeLabel t then .ok ⟨t, none, payload⟩
          else .error .badType
      | [t, seqp, payload] =>
          if validTypeLabel t then
            match seqp.splitOn '-' with
            | [istr, cstr] =>
                match parseDec istr, parseDec cstr with
                | some i, some c =>
                    if 1 ≤ i ∧ 1 ≤ c then .ok ⟨t, some (i, c), payload⟩
                    else .error .badSeqNumbers
                | _, _ => .error .badSeqNumbers
            | _ => .error .badSeqNumbers
          else .error .badType
      | _ => .error .badStructure
  | _ => .error .missingScheme

theorem toDecAux_ne_nil {fuel n : Nat} (h : n < fuel) :
    toDecAux fuel n ≠ [] := by
  cases fuel with
  | zero => omega
  | succ fuel =>
      unfold toDecAux
      split
      · simp
      · simp

theorem toDecAux_digits {fuel : Nat} :
    ∀ {n : Nat}, n < fuel → ∀ c ∈ toDecAux fuel n, c.isDigit = true := by
  induction fuel with
  | zero => intro n h; omega
  | succ fuel ih =>
      intro n h c hc
      unfold toDecAux at hc
      split at hc
      · rw [List.mem_singleton] at hc
        subst hc
        rename_i h10
        interval_cases n <;> decide
      · rcases List.mem_append.mp hc with hm | hm
        · exact ih (by omega) c hm
        · rw [List.mem_singleton] at hm
          subst hm
          have h9 : n % 10 < 10 := Nat.mod_lt _ (by decide)
          interval_cases hh : (n % 10) <;> decide

theorem toDecAux_head_ne_zero {fuel : Nat} :
    ∀ {n : Nat}, n < fuel → 1 ≤ n →
      (toDecAux fuel n).head? ≠ some '0' := by
  induction fuel with
  | zero => intro n h; omega
  | succ fuel ih =>
      intro n h h1
      unfold toDecAux
      split
      · rename_i h10
        simp only [List.head?_cons]
        intro hc
        have : decDigit n = '0' := by injection hc
        interval_cases n <;> simp_all <;> cases this
      · rename_i h10
        have hne : toDecAux fuel (n / 10) ≠ [] :=
          toDecAux_ne_nil (show n / 10 < fuel by omega)
        have hih := ih (show n / 10 < fuel by omega)
          (show 1 ≤ n / 10 by omega)
        obtain ⟨x, xs, hx⟩ := List.exists_cons_of_ne_nil hne
        rw [hx, List.cons_append, List.head?_cons]
        rw [hx, List.head?_cons] at hih
        exact hih

theorem toDecAux_val {fuel : Nat} :
    ∀ {n : Nat}, n < fuel → ∀ acc,
      (toDecAux fuel n).foldl (fun a c => a * 10 + (c.toNat - 48)) acc =
        acc * 10 ^ (toDecAux fuel n).length + n := by
  induction fuel with
  | zero => intro n h; omega
  | succ fuel ih =>
      intro n h acc
      unfold toDecAux
      split
      · rename_i h10
        have hd : (decDigit n).toNat - 48 = n := by
          interval_cases n <;> decide
        simp [hd]
      · rename_i h10
        rw [List.foldl_append]
        rw [ih (show n / 10 < fuel by omega) acc]
        have hd : (decDigit (n % 10)).toNat - 48 = n % 10 := by
          have h9 : n % 10 < 10 := Nat.mod_lt _ (by decide)
          interval_cases hh : (n % 10) <;> decide
        simp only [List.foldl_cons, List.foldl_nil, List.length_append,
          List.length_cons, List.length_nil, hd]
        have hpow : 10 ^ ((toDecAux fuel (n / 10)).length + (0 + 1)) =
            10 ^ (toDecAux fuel (n / 10)).length * 10 := by
          rw [Nat.zero_add, Nat.pow_succ]
        rw [hpow]
        have := Nat.div_add_mod n 10
        ring_nf
        omega

theorem parseDec_toDec (n : Nat) : parseDec (toDec n) = some n := by
  have hlt : n < n + 1 := Nat.lt_succ_self n
  unfold parseDec toDec
  rw [if_neg (by simpa using toDecAux_ne_nil hlt)]
  rw [if_neg (by
    simp only [Bool.not_eq_true', Bool.not_eq_false]
    rw [List.all_eq_true]
    intro c hc
    exact toDecAux_digits hlt c hc)]
  rw [if_neg ?hz]
  · rw [toDecAux_val hlt 0]
    simp
  · case hz =>
      rintro ⟨hlen, hhead⟩
      by_cases h1 : 1 ≤ n
      · exact toDecAux_head_ne_zero hlt h1 hhead
      · have hn0 : n = 0 := by omega
        subst hn0
        simp [toDecAux] at hlen

theorem toDec_digits {n : Nat} : ∀ c ∈ toDec n, c.isDigit = true :=
  toDecAux_digits (Nat.lt_succ_self n)

theorem mem_intercalate_single {α : Type _} {c x : α} :
    ∀ {ls : List (List α)}, c ∈ List.intercalate [x] ls →
      c = x ∨ ∃ l ∈ ls, c ∈ l := by
  intro ls
  induction ls with
  | nil =>
      intro h
      simp [List.intercalate] at h
  | cons a ls ih =>
      intro h
      cases ls with
      | nil =>
          simp only [List.intercalate, List.intersperse_single,
            List.flatten_cons, List.flatten_nil, List.append_nil] at h
          exact Or.inr ⟨a, by simp, h⟩
      | cons b rest =>
          have hexp : List.intercalate [x] (a :: b :: rest) =
              a ++ [x] ++ List.intercalate [x] (b :: rest) := by
            simp [List.intercalate, List.flatten]
          rw [hexp] at h
          rcases List.mem_append.mp h with h' | h'
          · rcases List.mem_append.mp h' with h'' | h''
            · exact Or.inr ⟨a, by simp, h''⟩
            · exact Or.inl (List.mem_singleton.mp h'')
          · rcases ih h' with h'' | ⟨l, hl, hcl⟩
            · exact Or.inl h''
            · exact Or.inr ⟨l, List.mem_cons_of_mem _ hl, hcl⟩

theorem validTypeLabel_no_slash {t : List Char}
    (h : validTypeLabel t = true) : '/' ∉ t := by
  intro hmem
  rw [← List.intercalate_splitOn t '-'] at hmem
  rcases mem_intercalate_single hmem with h' | ⟨l, hl, hcl⟩
  · cases h'
  · unfold validTypeLabel at h
    rw [List.all_eq_true] at h
    have := h l hl
    rw [Bool.and_eq_true, List.all_eq_true] at this
    have := this.2 _ hcl
    cases this

theorem seqStr_no_slash {i c : Nat} {ch : Char}
    (h : ch ∈ List.intercalate ['-'] [toDec i, toDec c]) : ch.isDigit ∨
      ch = '-' := by
  rcases mem_intercalate_single h with h' | ⟨l, hl, hcl⟩
  · exact Or.inr h'
  · rcases List.mem_cons.mp hl with rfl | hl'
    · exact Or.inl (toDec_digits _ hcl)
    · rcases List.mem_cons.mp hl' with rfl | hl''
      · exact Or.inl (toDec_digits _ hcl)
      · cases hl''

/-- The envelope emitter/parser round trip (§4.7): well-formed label,
slash-free payload, positive sequence numbers. -/
theorem urParse_format (m : UrMsg) (ht : validTypeLabel m.urType = true)
    (hpay : '/' ∉ m.payload) (hseq : ∀ p ∈ m.seq, 1 ≤ p.1 ∧ 1 ≤ p.2) :
    urParse (urFormat m) = .ok m := by
  obtain ⟨t, seq, payload⟩ := m
  simp only at ht hpay hseq
  cases seq with
  | none =>
      have hsplit : (List.intercalate ['/'] [t, payload]).splitOn '/' =
          [t, payload] := by
        apply List.splitOn_intercalate
        · intro l hl
          rcases List.mem_cons.mp hl with rfl | hl'
          · exact validTypeLabel_no_slash ht
          · rcases List.mem_cons.mp hl' with rfl | hl''
            · exact hpay
            · cases hl''
        · simp
      simp only [urFormat, urParse, hsplit, List.cons_append,
        List.nil_append]
      rw [if_pos ht]
  | some ic =>
      obtain ⟨i, c⟩ := ic
      have hic := hseq (i, c) rfl
      have hsplit : (List.intercalate ['/']
          [t, List.intercalate ['-'] [toDec i, toDec c], payload]).splitOn
            '/' = [t, List.intercalate ['-'] [toDec i, toDec c], payload]
          := by
        apply List.splitOn_intercalate
        · intro l hl
          rcases List.mem_cons.mp hl with rfl | hl'
          · exact validTypeLabel_no_slash ht
          · rcases List.mem_cons.mp hl' with rfl | hl''
            · intro hmem
              rcases seqStr_no_slash hmem with hd | hd
              · cases hd
              · cases hd
            · rcases List.mem_cons.mp hl'' with rfl | h3
              · exact hpay
              · cases h3
        · simp
      have hsplit2 : (List.intercalate ['-']
          [toDec i, toDec c]).splitOn '-' = [toDec i, toDec c] := by
        apply List.splitOn_intercalate
        · intro l hl
          rcases List.mem_cons.mp hl with rfl | hl'
          · intro hmem
            have := toDec_digits _ hmem
            cases this
          · rcases List.mem_cons.mp hl' with rfl | hl''
            · intro hmem
              have := toDec_digits _ hmem
              cases this
            · cases hl''
        · simp
      simp only [urFormat, urParse, hsplit, hsplit2, List.cons_append,
        List.nil_append, parseDec_toDec]
      rw [if_pos ht, if_pos hic]

/-! ## Encoder and decoder (§4.8, §4.9 of the spec)

Modelled from the spec: the encoder/decoder modules are not in the
available source tree (their fuzz harnesses are).  Both are parametric over
the bytewords table and the RNG seed derivation, like the components above.
The single `receive` takes optional capacity bounds: `none` is the heap
decoder, `some` the fixed-capacity one (§4.9, bounded variant). -/

/-- XOR two byte strings position-wise. -/
def xorBytes (a b : List Nat) : List Nat := List.zipWith (· ^^^ ·) a b

/-- Split a message into `n` fragments of length `f`, the last one
right-zero-padded (§4.1). -/
def mkFragments (msg : List Nat) (f n : Nat) : List (List Nat) :=
  let padded := msg ++ List.replicate (n * f - msg.length) 0
  (List.range n).map (fun i => (padded.drop (i * f)).take f)

/-- Encoder state (§4.8): locked parameters and the monotonic sequence
index. -/
structure EncoderState where
  urType : List Char
  message : List Nat
  fragments : List (List Nat)
  fragmentLen : Nat
  seqCount : Nat
  checksum : Nat
  seqIdx : Nat

/-- `start(type, message, max_fragment_length)` (§4.8). -/
def Encoder.start (urType : List Char) (message : List Nat) (maxF : Nat) :
    EncoderState :=
  let n := sequenceCount message.length maxF
  let f := fragment_length message.length maxF
  ⟨urType, message, mkFragments message f n, f, n, crc32 message, 0⟩

/-- XOR together the fragments selected by the chooser (§4.8). -/
def xorFragments (frags : List (List Nat)) (idxs : List Nat) (f : Nat) :
    List Nat :=
  idxs.foldl (fun acc i => xorBytes acc (frags.getD (i - 1) []))
    (List.replicate f 0)

/-- `next_part()` (§4.8): increment the index; single-part form when
`N = 1`, otherwise a bytewords-encoded `Part`. -/
def Encoder.nextPart (mkRng : Nat → Rng) (tbl : Nat → List Char)
    (e : EncoderState) : List Char × EncoderState :=
  let e' := { e with seqIdx := e.seqIdx + 1 }
  if e.seqCount = 1 then
    (urFormat ⟨e.urType, none, bytewordsEncode tbl .minimal e.message⟩, e')
  else
    let idxs := chooseFragments mkRng e'.seqIdx e.seqCount e.checksum
    let data := xorFragments e.fragments idxs e.fragmentLen
    let p : Part :=
      ⟨e'.seqIdx, e.seqCount, e.message.length, e.checksum, data⟩
    (urFormat ⟨e.urType, some (e'.seqIdx, e.seqCount),
      bytewordsEncode tbl .minimal (partEncode p)⟩, e')

/-- The next `k` emitted UR strings. -/
def encoderPartsFrom (mkRng : Nat → Rng) (tbl : Nat → List Char) :
    EncoderState → Nat → List (List Char)
  | _, 0 => []
  | e, k + 1 =>
      (Encoder.nextPart mkRng tbl e).1 ::
        encoderPartsFrom mkRng tbl (Encoder.nextPart mkRng tbl e).2 k

/-- The session parameters locked by the first accepted part (§4.9
step 3). -/
structure SessionParams where
  urType : List Char
  seqCount : Nat
  msgLen : Nat
  fragLen : Nat
  cks : Nat
deriving DecidableEq

/-- Decoder state (§3): locked parameters, resolved fragments, pending
mixtures, progress, and the completed message. -/
structure DecoderState where
  params : Option SessionParams
  known : List (Nat × List Nat)
  queue : List (List Nat × List Nat)
  received : Nat
  result : Option (List Char × List Nat)
deriving DecidableEq

def DecoderState.initial : DecoderState := ⟨none, [], [], 0, none⟩

/-- `message()` (§4.9): available once complete. -/
def DecoderState.message (s : DecoderState) : Option (List Char × List Nat) :=
  s.result

/-- `complete()` (§4.9). -/
def DecoderState.isComplete (s : DecoderState) : Bool := s.result.isSome

/-- Decoder errors (§7). -/
inductive DecErr where
  | parse (e : ParseErr)
  | bytewords (e : BwErr)
  | part (e : PartErr)
  | invalidPart
  | mismatchedPart
  | capacity
  | inconsistent
  | internalCrc
deriving DecidableEq

/-- Compile-time bounds of the fixed-capacity decoder (§4.9). -/
structure Caps where
  maxMessageLen : Nat
  maxFragmentLen : Nat
  maxSequenceCount : Nat
  queueSize : Nat
  maxUrType : Nat
deriving DecidableEq

/-- §4.9 step 5, first phase: XOR all already-known fragments out of a
mixture. -/
def reduceByKnown (known : List (Nat × List Nat))
    (m : List Nat × List Nat) : List Nat × List Nat :=
  (m.1.filter (fun i => (known.lookup i).isNone),
    (m.1.filter (fun i => (known.lookup i).isSome)).foldl
      (fun res i => xorBytes res ((known.lookup i).getD [])) m.2)

/-- §4.9 step 5: the reduction loop to fixed point.  An empty mixture must
have an all-zero residual; a pure mixture is recorded and the queue is
re-examined; anything else is queued.  The fuel (chosen large enough by the
caller) makes the breadth-first loop total. -/
def decLoop :
    Nat → List (Nat × List Nat) → List (List Nat × List Nat) →
    List (List Nat × List Nat) →
    Except DecErr (List (Nat × List Nat) × List (List Nat × List Nat))
  | 0, known, queue, work => .ok (known, queue ++ work)
  | _ + 1, known, queue, [] => .ok (known, queue)
  | fuel + 1, known, queue, m :: work =>
      match reduceByKnown known m with
      | ([], res) =>
          if res.all (· == 0) then decLoop fuel known queue work
          else .error .inconsistent
      | ([i], res) => decLoop fuel (known ++ [(i, res)]) [] (queue ++ work)
      | (is, res) => decLoop fuel known (queue ++ [(is, res)]) work

/-- §4.9 steps 4–6 for an accepted multi-part `p` against locked
parameters `pr`. -/
def receiveStep (mkRng : Nat → Rng) (s : DecoderState) (pr : SessionParams)
    (p : Part) : Except DecErr DecoderState :=
  let idxs := chooseFragments mkRng p.sequence pr.seqCount pr.cks
  let fuel := (s.queue.length + 2) * (pr.seqCount + 2)
  match decLoop fuel s.known s.queue [(idxs, p.data)] with
  | .error e => .error e
  | .ok (known', queue') =>
      if known'.length = pr.seqCount then
        match (List.range' 1 pr.seqCount).mapM
            (fun i => known'.lookup i) with
        | none => .error .internalCrc
        | some frs =>
            let msgBytes := frs.flatten.take pr.msgLen
            if crc32 msgBytes ≠ pr.cks then .error .internalCrc
            else
              .ok ⟨some pr, known', queue', s.received + 1,
                some (pr.urType, msgBytes)⟩
      else .ok ⟨some pr, known', queue', s.received + 1, none⟩

/-- Modelled from the spec (§4.9): `receive(ur)`.  `caps = none` is the
heap decoder; `caps = some c` is the fixed-capacity decoder, which rejects
a part exceeding any bound with a capacity error and stays usable. -/
def receive (mkRng : Nat → Rng) (tbl : Nat → List Char)
    (caps : Option Caps) (s : DecoderState) (input : List Char) :
    Except DecErr DecoderState :=
  if s.result.isSome then .ok s
  else
    match urParse input with
    | .error e => .error (.parse e)
    | .ok msg =>
        match msg.seq with
        | none =>
            match bytewordsDecode tbl .minimal msg.payload with
            | .error e => .error (.bytewords e)
            | .ok bytes =>
                let capsOkay : Bool := match caps with
                  | none => true
                  | some cp => msg.urType.length ≤ cp.maxUrType ∧
                      bytes.length ≤ cp.maxMessageLen
                if capsOkay then
                  .ok ⟨s.params, s.known, s.queue, s.received + 1,
                    some (msg.urType, bytes)⟩
                else .error .capacity
        | some _ =>
            match bytewordsDecode tbl .minimal msg.payload with
            | .error e => .error (.bytewords e)
            | .ok bytes =>
                match partDecode bytes with
                | .error e => .error (.part e)
                | .ok p =>
                    if p.isValid = false then .error .invalidPart
                    else
                      let capsOkay : Bool := match caps with
                        | none => true
                        | some cp => msg.urType.length ≤ cp.maxUrType ∧
                            p.message_length ≤ cp.maxMessageLen ∧
                            p.sequence_count ≤ cp.maxSequenceCount ∧
                            p.data.length ≤ cp.maxFragmentLen ∧
                            s.queue.length ≤ cp.queueSize
                      if capsOkay = false then .error .capacity
                      else
                        match s.params with
                        | some pr =>
                            if pr.urType ≠ msg.urType ∨
                                pr.seqCount ≠ p.sequence_count ∨
                                pr.msgLen ≠ p.message_length ∨
                                pr.fragLen ≠ p.data.length ∨
                                pr.cks ≠ p.checksum then
                              .error .mismatchedPart
                            else receiveStep mkRng s pr p
                        | none =>
                            receiveStep mkRng s
                              ⟨msg.urType, p.sequence_count,
                                p.message_length, p.data.length, p.checksum⟩
                              p

/-- The caller convention of the fuzz harness (`ur_decode.rs`):
`decoder.receive(&ur).ok()` — keep the previous state on error. -/
def receiveOrKeep (mkRng : Nat → Rng) (tbl : Nat → List Char)
    (caps : Option Caps) (s : DecoderState) (input : List Char) :
    DecoderState :=
  match receive mkRng tbl caps s input with
  | .ok s' => s'
  | .error _ => s

/-- Feed a list of UR strings in order. -/
def foldReceive (mkRng : Nat → Rng) (tbl : Nat → List Char)
    (caps : Option Caps) (s : DecoderState) (inputs : List (List Char)) :
    DecoderState :=
  inputs.foldl (receiveOrKeep mkRng tbl caps) s

/-! ### Supporting lemmas for the end-to-end results -/

theorem cdiv_le_self {a b : Nat} (hb : 1 ≤ b) : cdiv a b ≤ a :=
  cdiv_le_of_le hb (Nat.le_mul_of_pos_right a hb)

theorem xorBytes_zero : ∀ (l : List Nat),
    xorBytes (List.replicate l.length 0) l = l := by
  intro l
  induction l with
  | nil => rfl
  | cons x xs ih =>
      simp only [List.length_cons, List.replicate_succ, xorBytes,
        List.zipWith_cons_cons, Nat.zero_xor]
      exact congrArg _ ih

theorem lookup_append_right {α β : Type _} [BEq α] :
    ∀ (l₁ l₂ : List (α × β)) (k : α), l₁.lookup k = none →
      (l₁ ++ l₂).lookup k = l₂.lookup k := by
  intro l₁
  induction l₁ with
  | nil => intro l₂ k _; rfl
  | cons p l₁ ih =>
      intro l₂ k h
      rw [List.cons_append]
      rw [List.lookup_cons] at h ⊢
      split at h
      · cases h
      · exact ih l₂ k h

theorem lookup_append_left {α β : Type _} [BEq α] :
    ∀ (l₁ l₂ : List (α × β)) (k : α) (v : β), l₁.lookup k = some v →
      (l₁ ++ l₂).lookup k = some v := by
  intro l₁
  induction l₁ with
  | nil => intro l₂ k v h; cases h
  | cons p l₁ ih =>
      intro l₂ k v h
      rw [List.cons_append] at *
      rw [List.lookup_cons] at h ⊢
      split at h
      · exact h
      · exact ih l₂ k v h

theorem lookup_mapRange :
    ∀ (k : Nat) (f : Nat → List Nat) (j : Nat),
      ((List.range' 1 k).map (fun i => (i, f i))).lookup j =
        if 1 ≤ j ∧ j ≤ k then some (f j) else none := by
  intro k
  induction k with
  | zero =>
      intro f j
      rw [if_neg (by omega)]
      rfl
  | succ k ih =>
      intro f j
      rw [List.range'_1_concat, List.map_append]
      simp only [List.map_cons, List.map_nil]
      by_cases hjk : 1 ≤ j ∧ j ≤ k
      · rw [lookup_append_left _ _ _ _ (by rw [ih, if_pos hjk]),
          if_pos (by omega)]
      · rw [lookup_append_right _ _ _ (by rw [ih, if_neg hjk])]
        by_cases hj : j = 1 + k
        · subst hj
          rw [if_pos (by omega)]
          simp [List.lookup_cons]
        · rw [if_neg (by omega)]
          rw [List.lookup_cons]
          have hbeq : (j == 1 + k) = false := by simpa using hj
          rw [hbeq]
          rfl

theorem mapM_eq_some_map {α β : Type _} (g : α → Option β) (h : α → β) :
    ∀ (l : List α), (∀ x ∈ l, g x = some (h x)) →
      l.mapM g = some (l.map h) := by
  intro l
  induction l with
  | nil => intro; rfl
  | cons x xs ih =>
      intro hall
      rw [List.mapM_cons, hall x (List.mem_cons_self _ _),
        ih (fun y hy => hall y (List.mem_cons_of_mem _ hy))]
      rfl

theorem chunks_flatten :
    ∀ (n f : Nat) (l : List Nat), l.length = n * f →
      ((List.range n).map (fun i => (l.drop (i * f)).take f)).flatten = l
    := by
  intro n
  induction n with
  | zero =>
      intro f l h
      simp only [Nat.zero_mul] at h
      rw [List.eq_nil_of_length_eq_zero h]
      rfl
  | succ n ih =>
      intro f l h
      rw [List.range_succ_eq_map, List.map_cons, List.flatten_cons,
        List.map_map]
      have hcongr : (fun i => (l.drop (i * f)).take f) ∘ Nat.succ =
          fun i => ((l.drop f).drop (i * f)).take f := by
        funext i
        simp only [Function.comp_apply]
        rw [List.drop_drop]
        have hsucc : Nat.succ i = i + 1 := rfl
        have harith : Nat.succ i * f = f + i * f := by rw [hsucc]; ring
        rw [harith]
      rw [hcongr]
      rw [ih f (l.drop f) (by
        rw [List.length_drop, h]
        have : (n + 1) * f = n * f + f := by ring
        omega)]
      simp

theorem mkFragments_getD (msg : List Nat) (f n : Nat) {i : Nat}
    (h1 : 1 ≤ i) (h2 : i ≤ n) :
    (mkFragments msg f n).getD (i - 1) [] =
      ((msg ++ List.replicate (n * f - msg.length) 0).drop ((i - 1) * f)).take
        f := by
  unfold mkFragments
  rw [List.getD_eq_getElem _ _ (by simp; omega)]
  simp

theorem padded_length {msg : List Nat} {n f : Nat}
    (hlen : msg.length ≤ n * f) :
    (msg ++ List.replicate (n * f - msg.length) 0).length = n * f := by
  simp
  omega

theorem pred_mul_add {i f : Nat} (h1 : 1 ≤ i) : (i - 1) * f + f = i * f := by
  have : i - 1 + 1 = i := by omega
  calc (i - 1) * f + f = (i - 1 + 1) * f := by ring
    _ = i * f := by rw [this]

theorem frag_length {msg : List Nat} {f n i : Nat} (h1 : 1 ≤ i) (h2 : i ≤ n)
    (hlen : msg.length ≤ n * f) :
    (((msg ++ List.replicate (n * f - msg.length) 0).drop
      ((i - 1) * f)).take f).length = f := by
  rw [List.length_take, List.length_drop, padded_length hlen]
  have hmul : i * f ≤ n * f := Nat.mul_le_mul_right f h2
  have := pred_mul_add (f := f) h1
  omega

theorem frag_bytes {msg : List Nat} {f n i : Nat}
    (hb : ∀ b ∈ msg, b < 256) :
    ∀ b ∈ ((msg ++ List.replicate (n * f - msg.length) 0).drop
      ((i - 1) * f)).take f, b < 256 := by
  intro b hmem
  have h1 := List.mem_of_mem_drop (List.mem_of_mem_take hmem)
  rcases List.mem_append.mp h1 with h | h
  · exact hb b h
  · rw [List.eq_of_mem_replicate h]
    decide

theorem cborUint_lt {n : Nat} : ∀ b ∈ cborUint n, b < 256 := by
  intro b hb
  unfold cborUint at hb
  split at hb
  · simp only [List.mem_singleton] at hb; omega
  · split at hb
    · rcases List.mem_cons.mp hb with rfl | hb'
      · decide
      · simp only [List.mem_singleton] at hb'; omega
    · split at hb
      · rcases List.mem_cons.mp hb with rfl | hb'
        · decide
        · rcases List.mem_cons.mp hb' with rfl | hb''
          · rename_i h65536 _
            omega
          · simp only [List.mem_singleton] at hb''
            subst hb''
            exact Nat.mod_lt _ (by decide)
      · rcases List.mem_cons.mp hb with rfl | hb'
        · decide
        · rcases List.mem_cons.mp hb' with rfl | hb''
          · exact Nat.mod_lt _ (by decide)
          · rcases List.mem_cons.mp hb'' with rfl | h3
            · exact Nat.mod_lt _ (by decide)
            · rcases List.mem_cons.mp h3 with rfl | h4
              · exact Nat.mod_lt _ (by decide)
              · simp only [List.mem_singleton] at h4
                subst h4
                exact Nat.mod_lt _ (by decide)

theorem cborBytesHead_lt {n : Nat} : ∀ b ∈ cborBytesHead n, b < 256 := by
  intro b hb
  unfold cborBytesHead at hb
  split at hb
  · simp only [List.mem_singleton] at hb
    rename_i h24
    omega
  · split at hb
    · rcases List.mem_cons.mp hb with rfl | hb'
      · decide
      · simp only [List.mem_singleton] at hb'; omega
    · split at hb
      · rcases List.mem_cons.mp hb with rfl | hb'
        · decide
        · rcases List.mem_cons.mp hb' with rfl | hb''
          · rename_i h65536 _
            omega
          · simp only [List.mem_singleton] at hb''
            subst hb''
            exact Nat.mod_lt _ (by decide)
      · rcases List.mem_cons.mp hb with rfl | hb'
        · decide
        · rcases List.mem_cons.mp hb' with rfl | hb''
          · exact Nat.mod_lt _ (by decide)
          · rcases List.mem_cons.mp hb'' with rfl | h3
            · exact Nat.mod_lt _ (by decide)
            · rcases List.mem_cons.mp h3 with rfl | h4
              · exact Nat.mod_lt _ (by decide)
              · simp only [List.mem_singleton] at h4
                subst h4
                exact Nat.mod_lt _ (by decide)

theorem partEncode_lt {p : Part} (hd : ∀ b ∈ p.data, b < 256) :
    ∀ b ∈ partEncode p, b < 256 := by
  intro b hb
  unfold partEncode at hb
  simp only [List.append_assoc, List.cons_append, List.nil_append,
    List.mem_cons, List.mem_append] at hb
  rcases hb with rfl | h | h | h | h | h | h
  · decide
  · exact cborUint_lt b h
  · exact cborUint_lt b h
  · exact cborUint_lt b h
  · exact cborUint_lt b h
  · exact cborBytesHead_lt b h
  · exact hd b h

theorem partEncode_ne_nil (p : Part) : partEncode p ≠ [] := by
  unfold partEncode
  simp

theorem bytewordsEncode_minimal_lower {tbl : Nat → List Char}
    (htbl : GoodTable tbl) {x : List Nat} (hx : ∀ b ∈ x, b < 256) :
    ∀ c ∈ bytewordsEncode tbl .minimal x, c.isLower = true := by
  intro c hc
  unfold bytewordsEncode at hc
  simp only [List.mem_flatten, List.mem_map] at hc
  obtain ⟨w, ⟨b, hb, rfl⟩, hcw⟩ := hc
  have hb256 : b < 256 := by
    rcases List.mem_append.mp hb with h | h
    · exact hx b h
    · exact be32_mem_lt h
  exact htbl.2.1 b hb256 c
    (minimalForm_subset (htbl.1 b hb256) c hcw)

theorem slash_not_mem_minimal {tbl : Nat → List Char}
    (htbl : GoodTable tbl) {x : List Nat} (hx : ∀ b ∈ x, b < 256) :
    '/' ∉ bytewordsEncode tbl .minimal x := by
  intro hmem
  have := bytewordsEncode_minimal_lower htbl hx _ hmem
  cases this

/-- The UR string of the part with index `idx` for fixed session data. -/
def partStr (mkRng : Nat → Rng) (tbl : Nat → List Char) (urType : List Char)
    (msg : List Nat) (frags : List (List Nat)) (f n cks idx : Nat) :
    List Char :=
  urFormat ⟨urType, some (idx, n), bytewordsEncode tbl .minimal (partEncode
    ⟨idx, n, msg.length, cks,
      xorFragments frags (chooseFragments mkRng idx n cks) f⟩)⟩

theorem encoderPartsFrom_eq (mkRng : Nat → Rng) (tbl : Nat → List Char) :
    ∀ (k : Nat) (e : EncoderState), e.seqCount ≠ 1 →
      encoderPartsFrom mkRng tbl e k =
        (List.range k).map (fun j => partStr mkRng tbl e.urType e.message
          e.fragments e.fragmentLen e.seqCount e.checksum
          (e.seqIdx + j + 1)) := by
  intro k
  induction k with
  | zero => intro e _; rfl
  | succ k ih =>
      intro e hn
      rw [encoderPartsFrom, List.range_succ_eq_map, List.map_cons,
        List.map_map]
      congr 1
      · unfold Encoder.nextPart partStr
        rw [if_neg hn]
      · have hstate : (Encoder.nextPart mkRng tbl e).2 =
            { e with seqIdx := e.seqIdx + 1 } := by
          unfold Encoder.nextPart
          split <;> rfl
        rw [hstate, ih _ (by exact hn)]
        apply List.map_congr_left
        intro j _
        simp only [Function.comp_apply]
        congr 1
        omega

/-- The decoder state after receiving the first `k` (pure) parts of a
multi-part session in order: the session parameters `(N, L, F, checksum)`
are locked and fragments `1..k` are known. -/
def pureState (label : List Char) (msg : List Nat) (N F cks : Nat)
    (frags : List (List Nat)) (k : Nat) : DecoderState :=
  if k = 0 then DecoderState.initial
  else
    { params := some ⟨label, N, msg.length, F, cks⟩,
      known := (List.range' 1 k).map (fun i => (i, frags.getD (i - 1) [])),
      queue := [],
      received := k,
      result := if k = N then some (label, msg) else none }

theorem pureState_result_none {label : List Char} {msg : List Nat}
    {N F cks k : Nat} {frags : List (List Nat)} (hk : k ≠ N) :
    (pureState label msg N F cks frags k).result = none := by
  unfold pureState
  split
  · rfl
  · simp [hk]

/-- Receiving a fresh pure part on an empty queue records it directly. -/
theorem decLoop_pure_insert {fuel : Nat} (known : List (Nat × List Nat))
    (i : Nat) (data : List Nat) (hfuel : 2 ≤ fuel)
    (hlookup : known.lookup i = none) :
    decLoop fuel known [] [([i], data)] = .ok (known ++ [(i, data)], []) := by
  match fuel, hfuel with
  | f + 2, _ =>
      have hred : reduceByKnown known ([i], data) = ([i], data) := by
        simp [reduceByKnown, List.filter, hlookup]
      rw [decLoop, hred]
      rw [show (([] : List (List Nat × List Nat)) ++ []) = [] from rfl]
      cases f with
      | zero => rfl
      | succ f => rfl

theorem receive_pure_step (mkRng : Nat → Rng) (tbl : Nat → List Char)
    (htbl : GoodTable tbl) (label : List Char)
    (hlabel : validTypeLabel label = true) (msg : List Nat) (hne : msg ≠ [])
    (hb : ∀ b ∈ msg, b < 256) (hL32 : msg.length < 2 ^ 32)
    (N F cks : Nat) (frags : List (List Nat))
    (hN2 : 2 ≤ N) (hNL : N ≤ msg.length) (hF1 : 1 ≤ F)
    (hFL : F ≤ msg.length) (hLNF : msg.length ≤ N * F)
    (hFcdiv : cdiv msg.length N = F) (hcks : cks = crc32 msg)
    (hfrags : frags = mkFragments msg F N) (k : Nat) (hk : k < N) :
    receive mkRng tbl none (pureState label msg N F cks frags k)
      (partStr mkRng tbl label msg frags F N cks (k + 1)) =
      .ok (pureState label msg N F cks frags (k + 1)) := by
  have hL1 : 1 ≤ msg.length := by
    cases msg with
    | nil => exact absurd rfl hne
    | cons x xs => simp
  have hcks32 : cks < 2 ^ 32 := hcks ▸ crc32_lt hb
  -- the data carried by the (k+1)-th emission
  have hchoose : chooseFragments mkRng (k + 1) N cks = [k + 1] :=
    chooseFragments_pure mkRng cks (by omega) (by omega)
  have hgetD : frags.getD (k + 1 - 1) [] =
      ((msg ++ List.replicate (N * F - msg.length) 0).drop
        ((k + 1 - 1) * F)).take F := by
    rw [hfrags]
    exact mkFragments_getD msg F N (by omega) (by omega)
  have hdlen : (frags.getD k []).length = F := by
    rw [show k = k + 1 - 1 from rfl, hgetD]
    exact frag_length (by omega) (by omega) hLNF
  have hdbytes : ∀ b ∈ frags.getD k [], b < 256 := by
    rw [show k = k + 1 - 1 from rfl, hgetD]
    exact frag_bytes hb
  have hxor : xorFragments frags (chooseFragments mkRng (k + 1) N cks) F =
      frags.getD k [] := by
    rw [hchoose]
    unfold xorFragments
    rw [List.foldl_cons, List.foldl_nil,
      show k + 1 - 1 = k from rfl, ← hdlen, xorBytes_zero]
  have hpbytes : ∀ b ∈ partEncode
      ⟨k + 1, N, msg.length, cks, frags.getD k []⟩, b < 256 :=
    partEncode_lt hdbytes
  have hparse : urParse (partStr mkRng tbl label msg frags F N cks (k + 1)) =
      .ok ⟨label, some (k + 1, N), bytewordsEncode tbl .minimal (partEncode
        ⟨k + 1, N, msg.length, cks, frags.getD k []⟩)⟩ := by
    unfold partStr
    rw [hxor]
    apply urParse_format ⟨label, some (k + 1, N), _⟩ hlabel
    · exact slash_not_mem_minimal htbl hpbytes
    · rintro q hq
      cases hq
      exact ⟨by omega, by omega⟩
  have hbw : bytewordsDecode tbl .minimal (bytewordsEncode tbl .minimal
      (partEncode ⟨k + 1, N, msg.length, cks, frags.getD k []⟩)) =
      .ok (partEncode ⟨k + 1, N, msg.length, cks, frags.getD k []⟩) := by
    rw [bytewordsDecode_encode htbl .minimal _ hpbytes, stripCrc_append,
      if_neg (by simp [partEncode_ne_nil])]
  have hpd : partDecode (partEncode
      ⟨k + 1, N, msg.length, cks, frags.getD k []⟩) =
      .ok ⟨k + 1, N, msg.length, cks, frags.getD k []⟩ := by
    apply partDecode_encode
    · simp only
      omega
    · simp only
      omega
    · simp only
      omega
    · simp only
      omega
    · simp only
      omega
    · simp only
      exact hcks32
    · simp only [hdlen]
      omega
  have hvalid : Part.isValid ⟨k + 1, N, msg.length, cks, frags.getD k []⟩ =
      true := by
    unfold Part.isValid
    simp only [hdlen, Bool.and_eq_true, decide_eq_true_eq, beq_iff_eq]
    exact ⟨⟨⟨by omega, by omega⟩, by omega⟩, hFcdiv⟩
  have hres : (pureState label msg N F cks frags k).result = none :=
    pureState_result_none (by omega)
  have hknown : (pureState label msg N F cks frags k).known =
      (List.range' 1 k).map (fun i => (i, frags.getD (i - 1) [])) := by
    unfold pureState
    split
    · rename_i h0
      subst h0
      rfl
    · rfl
  have hqueue : (pureState label msg N F cks frags k).queue = [] := by
    unfold pureState
    split <;> rfl
  have hreceived : (pureState label msg N F cks frags k).received = k := by
    unfold pureState
    split
    · rename_i h0
      subst h0
      rfl
    · rfl
  have hlook : ((List.range' 1 k).map
      (fun i => (i, frags.getD (i - 1) []))).lookup (k + 1) = none := by
    rw [lookup_mapRange, if_neg (by omega)]
  have hknown1 : (List.range' 1 k).map (fun i => (i, frags.getD (i - 1) []))
      ++ [(k + 1, frags.getD k [])] =
      (List.range' 1 (k + 1)).map (fun i => (i, frags.getD (i - 1) [])) := by
    rw [List.range'_1_concat, List.map_append, Nat.add_comm 1 k]
    rfl
  have hklen : ((List.range' 1 (k + 1)).map
      (fun i => (i, frags.getD (i - 1) []))).length = k + 1 := by
    rw [List.length_map, List.length_range']
  have hstep : receiveStep mkRng (pureState label msg N F cks frags k)
      ⟨label, N, msg.length, F, cks⟩
      ⟨k + 1, N, msg.length, cks, frags.getD k []⟩ =
      .ok (pureState label msg N F cks frags (k + 1)) := by
    unfold receiveStep
    dsimp only
    rw [hknown, hqueue, hreceived, hchoose,
      decLoop_pure_insert _ _ _ (by simp) hlook, hknown1]
    dsimp only
    rw [hklen]
    by_cases hkN : k + 1 = N
    · rw [if_pos hkN]
      have hmapm : (List.range' 1 N).mapM (fun i =>
          ((List.range' 1 (k + 1)).map
            (fun i => (i, frags.getD (i - 1) []))).lookup i) =
          some ((List.range' 1 N).map (fun i => frags.getD (i - 1) [])) := by
        apply mapM_eq_some_map
        intro i hi
        have hib := List.mem_range'_1.mp hi
        rw [lookup_mapRange, if_pos (by omega)]
      rw [hmapm]
      dsimp only
      have hmapeq : (List.range N).map ((fun i => frags.getD (i - 1) []) ∘
          fun x => 1 + x) = (List.range N).map (fun j =>
            ((msg ++ List.replicate (N * F - msg.length) 0).drop
              (j * F)).take F) := by
        apply List.map_congr_left
        intro j hj
        have hjN : j < N := List.mem_range.mp hj
        simp only [Function.comp_apply]
        have h1 : 1 + j - 1 = j := by omega
        rw [h1, hfrags]
        exact mkFragments_getD msg F N (i := j + 1) (by omega) (by omega)
      have hflat : ((List.range' 1 N).map
          (fun i => frags.getD (i - 1) [])).flatten =
          msg ++ List.replicate (N * F - msg.length) 0 := by
        rw [List.range'_eq_map_range, List.map_map, hmapeq,
          chunks_flatten N F _ (padded_length hLNF)]
      rw [hflat]
      have htake : (msg ++ List.replicate (N * F - msg.length) 0).take
          msg.length = msg := by simp
      rw [htake, if_neg (by rw [← hcks]; simp)]
      unfold pureState
      rw [if_neg (by omega : ¬k + 1 = 0), if_pos hkN]
    · rw [if_neg (by omega : ¬k + 1 = N)]
      unfold pureState
      rw [if_neg (by omega : ¬k + 1 = 0), if_neg hkN]
  by_cases hk0 : k = 0
  · have hparams : (pureState label msg N F cks frags k).params = none := by
      rw [hk0]
      rfl
    unfold receive
    simp only [hres, Option.isSome_none, Bool.false_eq_true, if_false,
      hparse, hbw, hpd, hvalid, Bool.true_eq_false, hparams, hdlen]
    exact hstep
  · have hparams : (pureState label msg N F cks frags k).params =
        some ⟨label, N, msg.length, F, cks⟩ := by
      unfold pureState
      rw [if_neg hk0]
    unfold receive
    simp only [hres, Option.isSome_none, Bool.false_eq_true, if_false,
      hparse, hbw, hpd, hvalid, Bool.true_eq_false, hparams, hdlen]
    rw [if_neg (by simp)]
    exact hstep

/-- A fresh decoder accepts the single-part emission in one call and is
immediately complete with the original label and message. -/
theorem receive_single (mkRng : Nat → Rng) (tbl : Nat → List Char)
    (htbl : GoodTable tbl) (label : List Char)
    (hlabel : validTypeLabel label = true) (msg : List Nat) (hne : msg ≠ [])
    (hb : ∀ b ∈ msg, b < 256) :
    receive mkRng tbl none DecoderState.initial
      (urFormat ⟨label, none, bytewordsEncode tbl .minimal msg⟩) =
      .ok ⟨none, [], [], 1, some (label, msg)⟩ := by
  have hpar : urParse (urFormat ⟨label, none,
      bytewordsEncode tbl .minimal msg⟩) =
      .ok ⟨label, none, bytewordsEncode tbl .minimal msg⟩ :=
    urParse_format _ hlabel (slash_not_mem_minimal htbl hb)
      (by rintro p hp; cases hp)
  have hbw : bytewordsDecode tbl .minimal (bytewordsEncode tbl .minimal msg)
      = .ok msg := by
    rw [bytewordsDecode_encode htbl .minimal msg hb, stripCrc_append,
      if_neg (by simp [hne])]
  unfold receive
  simp only [show DecoderState.initial.result = none from rfl,
    Option.isSome_none, Bool.false_eq_true, if_false, hpar, hbw]
  rfl

/-- The single emitted part of a one-fragment session is the single-part
UR form of the whole message. -/
theorem encoderParts_single (mkRng : Nat → Rng) (tbl : Nat → List Char)
    (label : List Char) (msg : List Nat) (maxF : Nat)
    (hN1 : sequenceCount msg.length maxF = 1) :
    encoderPartsFrom mkRng tbl (Encoder.start label msg maxF) 1 =
      [urFormat ⟨label, none, bytewordsEncode tbl .minimal msg⟩] := by
  have hfirst : (Encoder.nextPart mkRng tbl (Encoder.start label msg maxF)).1
      = urFormat ⟨label, none, bytewordsEncode tbl .minimal msg⟩ := by
    unfold Encoder.nextPart
    dsimp only
    rw [if_pos (show (Encoder.start label msg maxF).seqCount = 1 from hN1)]
    rfl
  show (Encoder.nextPart mkRng tbl (Encoder.start label msg maxF)).1 ::
      encoderPartsFrom mkRng tbl
        (Encoder.nextPart mkRng tbl (Encoder.start label msg maxF)).2 0 = _
  rw [hfirst]
  rfl

/-- The first `N` emissions of a multi-fragment session, as `partStr`s in
index order. -/
theorem encoderParts_multi (mkRng : Nat → Rng) (tbl : Nat → List Char)
    (label : List Char) (msg : List Nat) (maxF : Nat)
    (hN2 : 2 ≤ sequenceCount msg.length maxF) :
    encoderPartsFrom mkRng tbl (Encoder.start label msg maxF)
        (sequenceCount msg.length maxF) =
      (List.range (sequenceCount msg.length maxF)).map (fun j =>
        partStr mkRng tbl label msg
          (mkFragments msg (fragment_length msg.length maxF)
            (sequenceCount msg.length maxF))
          (fragment_length msg.length maxF)
          (sequenceCount msg.length maxF) (crc32 msg) (j + 1)) := by
  rw [encoderPartsFrom_eq mkRng tbl _ _ (by
    show ¬sequenceCount msg.length maxF = 1
    omega)]
  apply List.map_congr_left
  intro j _
  show partStr mkRng tbl label msg
    (mkFragments msg (fragment_length msg.length maxF)
      (sequenceCount msg.length maxF))
    (fragment_length msg.length maxF)
    (sequenceCount msg.length maxF) (crc32 msg) (0 + j + 1) = _
  rw [Nat.zero_add]

/-- Within `1..=N` the chooser is pure, so the mixture of the `(j+1)`-th
emission is exactly the `(j+1)`-th source fragment. -/
theorem xorFrag_pure (mkRng : Nat → Rng) (msg : List Nat) (hne : msg ≠ [])
    (maxF : Nat) (hmF : 1 ≤ maxF) (j : Nat)
    (hj : j < sequenceCount msg.length maxF) :
    xorFragments
      (mkFragments msg (fragment_length msg.length maxF)
        (sequenceCount msg.length maxF))
      (chooseFragments mkRng (j + 1) (sequenceCount msg.length maxF)
        (crc32 msg))
      (fragment_length msg.length maxF) =
    (mkFragments msg (fragment_length msg.length maxF)
      (sequenceCount msg.length maxF)).getD j [] := by
  have hL1 : 1 ≤ msg.length := by
    cases msg with
    | nil => exact absurd rfl hne
    | cons x xs => simp
  have hNpos : 1 ≤ sequenceCount msg.length maxF := sequenceCount_pos hL1 hmF
  have hF1 : 1 ≤ fragment_length msg.length maxF :=
    fragment_length_pos hL1 hmF
  have hLNF : msg.length ≤ sequenceCount msg.length maxF *
      fragment_length msg.length maxF :=
    Nat.le_trans (le_mul_cdiv hNpos) (Nat.le_of_eq (Nat.mul_comm _ _))
  have hchoose : chooseFragments mkRng (j + 1)
      (sequenceCount msg.length maxF) (crc32 msg) = [j + 1] :=
    chooseFragments_pure mkRng (crc32 msg) (by omega) (by omega)
  have hgetD : (mkFragments msg (fragment_length msg.length maxF)
      (sequenceCount msg.length maxF)).getD (j + 1 - 1) [] =
      ((msg ++ List.replicate (sequenceCount msg.length maxF *
          fragment_length msg.length maxF - msg.length) 0).drop
        ((j + 1 - 1) * fragment_length msg.length maxF)).take
        (fragment_length msg.length maxF) :=
    mkFragments_getD msg _ _ (by omega) (by omega)
  have hdlen : ((mkFragments msg (fragment_length msg.length maxF)
      (sequenceCount msg.length maxF)).getD j []).length =
      fragment_length msg.length maxF := by
    rw [show j = j + 1 - 1 from rfl, hgetD]
    exact frag_length (by omega) (by omega) hLNF
  rw [hchoose]
  unfold xorFragments
  rw [List.foldl_cons, List.foldl_nil, show j + 1 - 1 = j from rfl]
  nth_rewrite 1 [← hdlen]
  rw [xorBytes_zero]

/-- Folding the first `k ≤ N` emissions of a multi-part session from a
fresh decoder lands exactly in `pureState k`. -/
theorem foldReceive_pure (mkRng : Nat → Rng) (tbl : Nat → List Char)
    (htbl : GoodTable tbl) (label : List Char)
    (hlabel : validTypeLabel label = true) (msg : List Nat) (hne : msg ≠ [])
    (hb : ∀ b ∈ msg, b < 256) (hL32 : msg.length < 2 ^ 32)
    (N F cks : Nat) (frags : List (List Nat))
    (hN2 : 2 ≤ N) (hNL : N ≤ msg.length) (hF1 : 1 ≤ F)
    (hFL : F ≤ msg.length) (hLNF : msg.length ≤ N * F)
    (hFcdiv : cdiv msg.length N = F) (hcks : cks = crc32 msg)
    (hfrags : frags = mkFragments msg F N) :
    ∀ k, k ≤ N →
      foldReceive mkRng tbl none DecoderState.initial
        ((List.range k).map
          (fun j => partStr mkRng tbl label msg frags F N cks (j + 1))) =
        pureState label msg N F cks frags k := by
  intro k
  induction k with
  | zero => intro _; rfl
  | succ k ih =>
      intro hkN
      rw [List.range_succ, List.map_append]
      unfold foldReceive
      rw [List.foldl_append]
      have hprev := ih (by omega)
      unfold foldReceive at hprev
      rw [hprev]
      simp only [List.map_cons, List.map_nil, List.foldl_cons,
        List.foldl_nil]
      unfold receiveOrKeep
      rw [receive_pure_step mkRng tbl htbl label hlabel msg hne hb hL32
        N F cks frags hN2 hNL hF1 hFL hLNF hFcdiv hcks hfrags k (by omega)]

/-- C1: for every non-empty byte message with a valid type label and every
`max_fragment_length ≥ 1`, feeding the encoder's first `N` parts (`N` the
sequence count) in emission order to a fresh decoder leaves the decoder
incomplete after each proper prefix of the `N` parts, and after all `N`
parts it is complete with `message()` returning the original type label
and message bytes. -/
theorem C1_end_to_end (mkRng : Nat → Rng) (tbl : Nat → List Char)
    (htbl : GoodTable tbl) (label : List Char)
    (hlabel : validTypeLabel label = true) (msg : List Nat) (hne : msg ≠ [])
    (hb : ∀ b ∈ msg, b < 256) (hL32 : msg.length < 2 ^ 32)
    (maxF : Nat) (hmF : 1 ≤ maxF) :
    (∀ k < sequenceCount msg.length maxF,
      (foldReceive mkRng tbl none DecoderState.initial
        ((encoderPartsFrom mkRng tbl (Encoder.start label msg maxF)
          (sequenceCount msg.length maxF)).take k)).isComplete = false) ∧
    (foldReceive mkRng tbl none DecoderState.initial
      (encoderPartsFrom mkRng tbl (Encoder.start label msg maxF)
        (sequenceCount msg.length maxF))).message = some (label, msg) := by
  have hL1 : 1 ≤ msg.length := by
    cases msg with
    | nil => exact absurd rfl hne
    | cons x xs => simp
  have hNpos : 1 ≤ sequenceCount msg.length maxF := sequenceCount_pos hL1 hmF
  by_cases hN1 : sequenceCount msg.length maxF = 1
  · refine ⟨?_, ?_⟩
    · intro k hk
      rw [hN1] at hk
      have hk0 : k = 0 := by omega
      subst hk0
      simp only [List.take_zero]
      rfl
    · rw [hN1, encoderParts_single mkRng tbl label msg maxF hN1]
      unfold foldReceive
      rw [List.foldl_cons, List.foldl_nil]
      unfold receiveOrKeep
      rw [receive_single mkRng tbl htbl label hlabel msg hne hb]
      rfl
  · have hN2 : 2 ≤ sequenceCount msg.length maxF := by omega
    have hNL : sequenceCount msg.length maxF ≤ msg.length := cdiv_le_self hmF
    have hF1 : 1 ≤ fragment_length msg.length maxF :=
      fragment_length_pos hL1 hmF
    have hFL : fragment_length msg.length maxF ≤ msg.length :=
      cdiv_le_self hNpos
    have hLNF : msg.length ≤ sequenceCount msg.length maxF *
        fragment_length msg.length maxF :=
      Nat.le_trans (le_mul_cdiv hNpos) (Nat.le_of_eq (Nat.mul_comm _ _))
    have hfold := foldReceive_pure mkRng tbl htbl label hlabel msg hne hb
      hL32 (sequenceCount msg.length maxF) (fragment_length msg.length maxF)
      (crc32 msg)
      (mkFragments msg (fragment_length msg.length maxF)
        (sequenceCount msg.length maxF))
      hN2 hNL hF1 hFL hLNF rfl rfl rfl
    refine ⟨?_, ?_⟩
    · intro k hk
      have htake : (encoderPartsFrom mkRng tbl (Encoder.start label msg maxF)
          (sequenceCount msg.length maxF)).take k =
          (List.range k).map (fun j => partStr mkRng tbl label msg
            (mkFragments msg (fragment_length msg.length maxF)
              (sequenceCount msg.length maxF))
            (fragment_length msg.length maxF)
            (sequenceCount msg.length maxF) (crc32 msg) (j + 1)) := by
        rw [encoderParts_multi mkRng tbl label msg maxF hN2,
          ← List.map_take, List.take_range, Nat.min_eq_left (by omega)]
      rw [htake, hfold k (by omega)]
      unfold DecoderState.isComplete
      rw [pureState_result_none (by omega)]
      rfl
    · rw [encoderParts_multi mkRng tbl label msg maxF hN2,
        hfold (sequenceCount msg.length maxF) (Nat.le_refl _)]
      unfold DecoderState.message pureState
      rw [if_neg (by omega : ¬sequenceCount msg.length maxF = 0)]
      dsimp only
      rw [if_pos rfl]

/-- Witness for C1 at a multi-part session: `msg = [1, 2, 3]`,
`max_F = 2`, hence `N = 2`, with a synthetic table and seed function. -/
theorem C1_end_to_end_witness :
    (GoodTable sampleTable ∧ validTypeLabel ['a'] = true ∧
      ([1, 2, 3] : List Nat) ≠ [] ∧
      (∀ b ∈ ([1, 2, 3] : List Nat), b < 256) ∧
      ([1, 2, 3] : List Nat).length < 2 ^ 32 ∧ (1 : Nat) ≤ 2) ∧
    ((∀ k < sequenceCount ([1, 2, 3] : List Nat).length 2,
      (foldReceive (fun s => ⟨s, s + 1, s + 2, s + 3⟩) sampleTable none
        DecoderState.initial
        ((encoderPartsFrom (fun s => ⟨s, s + 1, s + 2, s + 3⟩) sampleTable
          (Encoder.start ['a'] [1, 2, 3] 2)
          (sequenceCount ([1, 2, 3] : List Nat).length 2)).take
            k)).isComplete = false) ∧
    (foldReceive (fun s => ⟨s, s + 1, s + 2, s + 3⟩) sampleTable none
      DecoderState.initial
      (encoderPartsFrom (fun s => ⟨s, s + 1, s + 2, s + 3⟩) sampleTable
        (Encoder.start ['a'] [1, 2, 3] 2)
        (sequenceCount ([1, 2, 3] : List Nat).length 2))).message =
      some (['a'], [1, 2, 3])) :=
  ⟨⟨sampleTable_good, by decide, by decide, by decide, by decide, by decide⟩,
    C1_end_to_end (fun s => ⟨s, s + 1, s + 2, s + 3⟩) sampleTable
      sampleTable_good ['a'] (by decide) [1, 2, 3] (by decide) (by decide)
      (by decide) 2 (by decide)⟩

/-- C5: whenever `receive` returns a parse, bytewords, part, validation
(invalid-part or mismatched-part), or capacity error, the decoder state is
unchanged under the harness convention (`receive(..).ok()` keeps the old
state) and every subsequent sequence of calls behaves exactly as if the
failing call had never been made. -/
theorem C5_receive_error_recoverable (mkRng : Nat → Rng)
    (tbl : Nat → List Char) (caps : Option Caps) (s : DecoderState)
    (input : List Char) (e : DecErr)
    (herr : receive mkRng tbl caps s input = .error e)
    (hkind : (∃ pe, e = .parse pe) ∨ (∃ be, e = .bytewords be) ∨
      (∃ qe, e = .part qe) ∨ e = .invalidPart ∨ e = .mismatchedPart ∨
      e = .capacity) :
    receiveOrKeep mkRng tbl caps s input = s ∧
    ∀ rest, foldReceive mkRng tbl caps s (input :: rest) =
      foldReceive mkRng tbl caps s rest := by
  have hkeep : receiveOrKeep mkRng tbl caps s input = s := by
    unfold receiveOrKeep
    rw [herr]
  refine ⟨hkeep, ?_⟩
  intro rest
  unfold foldReceive
  rw [List.foldl_cons, hkeep]

/-- Witness for C5 at a concrete parse failure: the input `"x"` has no
`ur:` scheme, the receiving state is the fresh decoder. -/
theorem C5_receive_error_recoverable_witness :
    (receive (fun s => ⟨s, s + 1, s + 2, s + 3⟩) sampleTable none
        DecoderState.initial ['x'] = .error (.parse .missingScheme) ∧
      ((∃ pe, DecErr.parse .missingScheme = .parse pe) ∨
        (∃ be, DecErr.parse .missingScheme = .bytewords be) ∨
        (∃ qe, DecErr.parse .missingScheme = .part qe) ∨
        DecErr.parse .missingScheme = .invalidPart ∨
        DecErr.parse .missingScheme = .mismatchedPart ∨
        DecErr.parse .missingScheme = .capacity)) ∧
    (receiveOrKeep (fun s => ⟨s, s + 1, s + 2, s + 3⟩) sampleTable none
        DecoderState.initial ['x'] = DecoderState.initial ∧
      ∀ rest, foldReceive (fun s => ⟨s, s + 1, s + 2, s + 3⟩) sampleTable
          none DecoderState.initial (['x'] :: rest) =
        foldReceive (fun s => ⟨s, s + 1, s + 2, s + 3⟩) sampleTable none
          DecoderState.initial rest) :=
  ⟨⟨by decide, Or.inl ⟨.missingScheme, rfl⟩⟩,
    C5_receive_error_recoverable (fun s => ⟨s, s + 1, s + 2, s + 3⟩)
      sampleTable none DecoderState.initial ['x'] (.parse .missingScheme)
      (by decide) (Or.inl ⟨.missingScheme, rfl⟩)⟩

/-- C6: for every `N`, every checksum, and every `sequence_index` with
`1 ≤ sequence_index ≤ N`, `choose_fragments` returns exactly the singleton
`[sequence_index]`; consequently the encoder's first `N` parts carry the
`N` source fragments, each exactly once and in index order (for `N = 1`,
the single-part form carrying the whole message). -/
theorem C6_first_parts_pure (mkRng : Nat → Rng) (tbl : Nat → List Char)
    (N cks i : Nat) (h1 : 1 ≤ i) (hiN : i ≤ N) (label : List Char)
    (msg : List Nat) (hne : msg ≠ []) (maxF : Nat) (hmF : 1 ≤ maxF) :
    chooseFragments mkRng i N cks = [i] ∧
    (sequenceCount msg.length maxF = 1 →
      encoderPartsFrom mkRng tbl (Encoder.start label msg maxF) 1 =
        [urFormat ⟨label, none, bytewordsEncode tbl .minimal msg⟩]) ∧
    (2 ≤ sequenceCount msg.length maxF →
      encoderPartsFrom mkRng tbl (Encoder.start label msg maxF)
          (sequenceCount msg.length maxF) =
        (List.range (sequenceCount msg.length maxF)).map (fun j =>
          urFormat ⟨label, some (j + 1, sequenceCount msg.length maxF),
            bytewordsEncode tbl .minimal (partEncode
              ⟨j + 1, sequenceCount msg.length maxF, msg.length, crc32 msg,
                (mkFragments msg (fragment_length msg.length maxF)
                  (sequenceCount msg.length maxF)).getD j []⟩)⟩)) := by
  refine ⟨chooseFragments_pure mkRng cks h1 hiN, ?_, ?_⟩
  · intro hN1
    exact encoderParts_single mkRng tbl label msg maxF hN1
  · intro hN2
    rw [encoderParts_multi mkRng tbl label msg maxF hN2]
    apply List.map_congr_left
    intro j hj
    unfold partStr
    rw [xorFrag_pure mkRng msg hne maxF hmF j (List.mem_range.mp hj)]

/-- Witness for C6 at `N = 3`, checksum 7, `sequence_index = 2`, and the
session `msg = [1, 2, 3]`, `max_F = 2` (hence two fragments). -/
theorem C6_first_parts_pure_witness :
    ((1 : Nat) ≤ 2 ∧ (2 : Nat) ≤ 3 ∧ ([1, 2, 3] : List Nat) ≠ [] ∧
      (1 : Nat) ≤ 2) ∧
    (chooseFragments (fun s => ⟨s, s + 1, s + 2, s + 3⟩) 2 3 7 = [2] ∧
      (sequenceCount ([1, 2, 3] : List Nat).length 2 = 1 →
        encoderPartsFrom (fun s => ⟨s, s + 1, s + 2, s + 3⟩) sampleTable
          (Encoder.start ['a'] [1, 2, 3] 2) 1 =
          [urFormat ⟨['a'], none,
            bytewordsEncode sampleTable .minimal [1, 2, 3]⟩]) ∧
      (2 ≤ sequenceCount ([1, 2, 3] : List Nat).length 2 →
        encoderPartsFrom (fun s => ⟨s, s + 1, s + 2, s + 3⟩) sampleTable
          (Encoder.start ['a'] [1, 2, 3] 2)
          (sequenceCount ([1, 2, 3] : List Nat).length 2) =
        (List.range (sequenceCount ([1, 2, 3] : List Nat).length 2)).map
          (fun j => urFormat ⟨['a'],
            some (j + 1, sequenceCount ([1, 2, 3] : List Nat).length 2),
            bytewordsEncode sampleTable .minimal (partEncode
              ⟨j + 1, sequenceCount ([1, 2, 3] : List Nat).length 2,
                ([1, 2, 3] : List Nat).length, crc32 [1, 2, 3],
                (mkFragments [1, 2, 3]
                  (fragment_length ([1, 2, 3] : List Nat).length 2)
                  (sequenceCount ([1, 2, 3] : List Nat).length 2)).getD
                  j []⟩)⟩))) :=
  ⟨⟨by decide, by decide, by decide, by decide⟩,
    C6_first_parts_pure (fun s => ⟨s, s + 1, s + 2, s + 3⟩) sampleTable 3 7
      2 (by decide) (by decide) ['a'] [1, 2, 3] (by decide) 2 (by decide)⟩

end UrRs
